import Mathlib

/-!
# httptreemux (package `way`): request contexts and routing

A shallow embedding of `context.go` and `treemux.go`, together with the part
of the Go standard library they call (`context.WithValue`, `Context.Value`,
`http.Request.Context`, `http.Request.WithContext`).

Go interface values are modelled by `GoVal`; a variable of interface type
`context.Context` is an `Option Context`, `none` being the nil interface.
Run-time panics are explicit: a Go call that can panic returns `Go α`.

The tree of the router, its insertion and lookup, and the dispatch are
declared in other files of the package.  They are modelled from the
specification, in definitions whose comment starts with `Modelled from the
spec`, and `Node.search` is proved to meet a declarative account of matching
(`matchSegments`) and of precedence (`prefers`) over the registered routes.
-/

namespace Way

/-! ## Go values, panics -/

/-- Reasons for which the modelled Go code panics. -/
inductive Panic where
  | nilDereference
  | nilParent
  | nilKey
  | keyNotComparable
  | nilContext
  deriving DecidableEq, Repr

/-- Result of a Go call that either returns or panics. -/
abbrev Go (α : Type) : Type := Except Panic α

/-- A Go value held in an `interface{}`: the nil interface, or a dynamic type
together with a value of it.  `wayContextKey` and `wayCatchAllType` are the two
defined string types of `context.go`; `string` is the built-in string type.
Every other dynamic type is represented by its name and a rendering of the
value, split by whether the type supports `==`. -/
inductive GoVal where
  | nil
  | string (s : String)
  | wayContextKey (s : String)
  | wayCatchAllType (s : String)
  | comparable (typ : String) (repr : String)
  | uncomparable (typ : String) (repr : String)
  deriving DecidableEq, Repr

/-- The check `reflectlite.TypeOf(key).Comparable()` of `context.WithValue`. -/
def GoVal.isComparable : GoVal → Bool
  | .uncomparable _ _ => false
  | _ => true

/-- The constant `wayCatchAllKey = wayCatchAllType("...")`. -/
def wayCatchAllKey : GoVal := GoVal.wayCatchAllType "..."

/-! ## package context -/

/-- A non-nil `context.Context` of the standard library: the empty context
(`context.Background()`, `context.TODO()`), a `valueCtx` made by
`context.WithValue`, or a cancellation context (`WithCancel`, `WithDeadline`,
`WithTimeout`), which carries no user value of its own. -/
inductive Context where
  | emptyCtx
  | valueCtx (parent : Context) (key val : GoVal)
  | cancelCtx (parent : Context)
  deriving DecidableEq, Repr

/-- The call `context.Background()`. -/
def Background : Context := Context.emptyCtx

/-- The method `Value` on a non-nil context: `valueCtx.Value` returns its own
value when `c.key == key` and asks its parent otherwise; the empty context
returns nil; a cancellation context answers only its private key and asks its
parent for every other one. -/
def Context.Value : Context → GoVal → GoVal
  | .emptyCtx, _ => GoVal.nil
  | .valueCtx parent k v, key => if k = key then v else parent.Value key
  | .cancelCtx parent, key => parent.Value key

/-- The call `ctx.Value(key)` on an interface variable: a method call on the
nil interface panics. -/
def ctxValue (ctx : Option Context) (key : GoVal) : Go GoVal :=
  match ctx with
  | none => .error Panic.nilDereference
  | some c => .ok (c.Value key)

/-- The function `context.WithValue(parent, key, val)`: panics on a nil
parent, on a nil key and on a key whose type is not comparable. -/
def WithValue (parent : Option Context) (key val : GoVal) : Go Context :=
  match parent with
  | none => .error Panic.nilParent
  | some p =>
    if key = GoVal.nil then .error Panic.nilKey
    else if !key.isComparable then .error Panic.keyNotComparable
    else .ok (Context.valueCtx p key val)

/-! ## context.go -/

/-- The function `getParam` of `context.go`. -/
def getParam (ctx : Option Context) (key : GoVal) : Go String :=
  match ctxValue ctx key with
  | .error e => .error e
  | .ok v =>
    if v = GoVal.nil then .ok ""
    else
      match v with
      | .string vStr => .ok vStr
      | _ => .ok ""

/-- The function `setParam` of `context.go`. -/
def setParam (ctx : Option Context) (key : GoVal) (value : String) : Go Context :=
  WithValue ctx key (GoVal.string value)

/-- The function `Param` of `context.go`. -/
def Param (ctx : Option Context) (param : String) : Go String :=
  getParam ctx (GoVal.wayContextKey param)

/-- The function `CatchAll` of `context.go`. -/
def CatchAll (ctx : Option Context) : Go String :=
  getParam ctx wayCatchAllKey

/-! ## net/http requests -/

/-- The fields of `http.Request` the router reads: the method, the path it
searches, and the unexported `ctx` field (nil until a context is attached). -/
structure Request where
  Method : String
  Path : String
  ctx : Option Context
  deriving DecidableEq, Repr

/-- The method `(*http.Request).Context`: the attached context, or
`context.Background()` when none is attached. -/
def Request.Context (r : Request) : Context :=
  match r.ctx with
  | some c => c
  | none => Background

/-- The method `(*http.Request).WithContext`: a shallow copy of the request
with its context replaced; panics on a nil context. -/
def Request.WithContext (r : Request) (ctx : Option Way.Context) : Go Request :=
  match ctx with
  | none => .error Panic.nilContext
  | some c => .ok { r with ctx := some c }

/-- The call `http.NewRequest(method, path, nil)`: the request carries
`context.Background()`. -/
def NewRequest (method path : String) : Request :=
  { Method := method, Path := path, ctx := some Background }

/-! ## treemux.go -/

/-- Modelled from the spec: the type `RedirectBehavior`, which `treemux.go`
uses without declaring it; the values are those listed for
`defaultRedirectBehavior` (section 6). -/
inductive RedirectBehavior where
  | PermanentRedirect
  | TemporaryRedirect
  | UseHandler
  | Redirect301
  | Redirect307
  | Redirect308
  deriving DecidableEq, Repr

/-- Registration failures: the conflicts and malformed patterns the
registration interface reports. -/
inductive RegError where
  | duplicateHandler
  | wildcardConflict
  | catchAllConflict
  | malformedPattern
  deriving DecidableEq, Repr

/-- Modelled from the spec: a pattern segment (section 3, Segment): static
text, a named single-segment wildcard, or a named catch-all. -/
inductive Segment where
  | static (text : String)
  | wildcard (name : String)
  | catchAll (name : String)
  deriving DecidableEq, Repr

/-- Modelled from the spec: the trie node (section 3, Node), the type `node`
that `treemux.go` uses for its `root` without declaring it.  A node owns its
method-to-handler mapping, its static children keyed by their label, at most
one wildcard child and at most one terminal catch-all child, each with the
name it binds.  There is one node per path segment (section 2); the splitting
of static labels into shared byte prefixes, which only speeds up the choice of
the one static child whose label is the next segment, is left out. -/
inductive Node (H : Type) where
  | mk (handlers : List (String × H)) (statics : List (String × Node H))
      (wildcard : Option (String × Node H))
      (catchAll : Option (String × List (String × H)))

/-- The node of an empty tree. -/
def Node.empty {H : Type} : Node H := Node.mk [] [] none none

/-- The struct `TreeMux` of `treemux.go`, with the fields that steer routing:
the tree, the OPTIONS fallback, `HeadCanUseGet`, the two redirect switches,
the redirect behaviours and `DefaultContext`.  The response hooks
(`PanicHandler`, `NotFoundHandler`, `MethodNotAllowedHandler`) are left at
their defaults and `RemoveCatchAllTrailingSlash` at its default `false`, so
that a catch-all match is never redirected. -/
structure TreeMux (H : Type) where
  root : Node H
  OptionsHandler : Option H
  HeadCanUseGet : Bool
  RedirectCleanPath : Bool
  RedirectTrailingSlash : Bool
  RedirectBehavior : Way.RedirectBehavior
  RedirectMethodBehavior : List (String × Way.RedirectBehavior)
  DefaultContext : Option Context

/-- The method `setDefaultRequestContext` of `treemux.go`. -/
def TreeMux.setDefaultRequestContext {H : Type} (t : TreeMux H) (r : Request) : Go Request :=
  if t.DefaultContext ≠ none then r.WithContext t.DefaultContext
  else .ok r

/-- Modelled from the spec: the constructor `New`, which `treemux.go` calls
without defining it; the defaults are those documented on the fields of
`TreeMux` and in section 6. -/
def New {H : Type} : TreeMux H :=
  { root := Node.empty
    OptionsHandler := none
    HeadCanUseGet := true
    RedirectCleanPath := true
    RedirectTrailingSlash := true
    RedirectBehavior := RedirectBehavior.Redirect301
    RedirectMethodBehavior := []
    DefaultContext := none }

/-! ## Path splitter -/

/-- Modelled from the spec: the result of the Path Splitter (section 4.1):
the non-empty segments in order and the two slash flags. -/
structure SplitPath where
  segments : List String
  hadLeadingSlash : Bool
  hadTrailingSlash : Bool
  deriving DecidableEq, Repr

/-- The non-empty runs between slashes; `cur` holds the characters of the run
being read, last one first. -/
def splitSegments : List Char → List Char → List String
  | cur, [] => if cur = [] then [] else [String.mk cur.reverse]
  | cur, c :: cs =>
    if c = '/' then
      if cur = [] then splitSegments [] cs
      else String.mk cur.reverse :: splitSegments [] cs
    else splitSegments (c :: cur) cs

/-- Whether the last character is a slash. -/
def endsWithSlash : List Char → Bool
  | [] => false
  | [c] => decide (c = '/')
  | _ :: c :: cs => endsWithSlash (c :: cs)

/-- Whether the first character is a slash. -/
def startsWithSlash : List Char → Bool
  | [] => false
  | c :: _ => decide (c = '/')

/-- Modelled from the spec: the Path Splitter (section 4.1), a total function;
an empty or all-slash path has no segment. -/
def splitPath (path : String) : SplitPath :=
  { segments := splitSegments [] path.data
    hadLeadingSlash := startsWithSlash path.data
    hadTrailingSlash := endsWithSlash path.data }

/-- The search key of a split path: its segments, followed by one empty token
when the path ended in a slash, so that a path and its trailing-slash variant
have different keys.  No segment is empty, so the empty token stands for
nothing else. -/
def SplitPath.tokens (sp : SplitPath) : List String :=
  sp.segments ++ (if sp.hadTrailingSlash then [""] else [])

/-- The tokens of a path. -/
def pathTokens (path : String) : List String := (splitPath path).tokens

/-- The segments joined with slashes. -/
def joinTokens : List String → String
  | [] => ""
  | [tok] => tok
  | tok :: rest => tok ++ "/" ++ joinTokens rest

/-! ## Patterns -/

/-- Modelled from the spec: the classification of a pattern token (sections
4.2 and 6): a leading colon declares a wildcard, a leading star a catch-all,
anything else is static; a wildcard or catch-all without a name is
malformed. -/
def classifySegment (tok : String) : Except RegError Segment :=
  match tok.data with
  | ':' :: name =>
    if name = [] then .error RegError.malformedPattern else .ok (Segment.wildcard (String.mk name))
  | '*' :: name =>
    if name = [] then .error RegError.malformedPattern else .ok (Segment.catchAll (String.mk name))
  | _ => .ok (Segment.static tok)

/-- Classification of every token of a pattern. -/
def classifyAll : List String → Except RegError (List Segment)
  | [] => .ok []
  | tok :: rest =>
    match classifySegment tok with
    | .error e => .error e
    | .ok seg =>
      match classifyAll rest with
      | .error e => .error e
      | .ok segs => .ok (seg :: segs)

/-- Whether a catch-all, if any, is the last segment. -/
def catchAllLast : List Segment → Bool
  | [] => true
  | [_] => true
  | Segment.catchAll _ :: _ :: _ => false
  | _ :: seg :: rest => catchAllLast (seg :: rest)

/-- Modelled from the spec: parsing of a registered pattern into segments; a
catch-all anywhere but last is malformed. -/
def parsePattern (pattern : String) : Except RegError (List Segment) :=
  match classifyAll (pathTokens pattern) with
  | .error e => .error e
  | .ok segs => if catchAllLast segs then .ok segs else .error RegError.malformedPattern

/-- Modelled from the spec: what it means for a pattern to match a path, with
the bindings it makes (section 3, Segment): static text matches the equal
segment, a wildcard one segment, a catch-all one or more remaining segments.
The result is the list of named bindings and the catch-all value, if any. -/
def matchSegments : List Segment → List String → Option (List (String × String) × Option String)
  | [], [] => some ([], none)
  | Segment.static text :: segs, tok :: rest =>
    if text = tok then matchSegments segs rest else none
  | Segment.wildcard name :: segs, tok :: rest =>
    if tok = "" then none
    else
      match matchSegments segs rest with
      | some (params, ca) => some ((name, tok) :: params, ca)
      | none => none
  | [Segment.catchAll name], tok :: rest =>
    if tok = "" then none
    else some ([(name, joinTokens (tok :: rest))], some (joinTokens (tok :: rest)))
  | _, _ => none

/-- The pattern, given as registered, matches the path. -/
def patternMatches (pattern path : String) : Bool :=
  match parsePattern pattern with
  | .error _ => false
  | .ok segs => (matchSegments segs (pathTokens path)).isSome

/-- Rank of a segment kind in the search order: static, wildcard, catch-all. -/
def Segment.rank : Segment → Nat
  | Segment.static _ => 0
  | Segment.wildcard _ => 1
  | Segment.catchAll _ => 2

/-- The first pattern is reached no later than the second by a search that
prefers, position by position, static over wildcard over catch-all. -/
def prefers : List Segment → List Segment → Bool
  | a :: p, b :: q => decide (a.rank < b.rank) || (decide (a.rank = b.rank) && prefers p q)
  | _, _ => true

/-! ## Insertion -/

/-- Attaching a handler for a method to a method-to-handler mapping: a
conflict when the method already has one (section 4.2). -/
def setHandler {H : Type} (handlers : List (String × H)) (method : String) (handler : H) :
    Except RegError (List (String × H)) :=
  match handlers.lookup method with
  | some _ => .error RegError.duplicateHandler
  | none => .ok (handlers ++ [(method, handler)])

/-- Replacement of the child stored under a label, or its addition when the
label is new. -/
def upsert {α : Type} : List (String × α) → String → α → List (String × α)
  | [], k, v => [(k, v)]
  | (k0, v0) :: rest, k, v => if k0 = k then (k, v) :: rest else (k0, v0) :: upsert rest k v

/-- Modelled from the spec: the Insertion Algorithm (section 4.2) on parsed
segments.  A static segment descends into the child of that label, created
when absent; a wildcard or catch-all takes the single slot of its kind, and a
different name in an occupied slot is a conflict; the handler is attached at
the node where the pattern ends. -/
def Node.insert {H : Type} : Node H → List Segment → String → H → Except RegError (Node H)
  | Node.mk hs st wc ca, [], m, h =>
    match setHandler hs m h with
    | .error e => .error e
    | .ok hs1 => .ok (Node.mk hs1 st wc ca)
  | Node.mk hs st wc ca, Segment.static text :: segs, m, h =>
    match Node.insert ((st.lookup text).getD Node.empty) segs m h with
    | .error e => .error e
    | .ok child => .ok (Node.mk hs (upsert st text child) wc ca)
  | Node.mk hs st wc ca, Segment.wildcard name :: segs, m, h =>
    match wc with
    | none =>
      match Node.insert Node.empty segs m h with
      | .error e => .error e
      | .ok child => .ok (Node.mk hs st (some (name, child)) ca)
    | some (name0, child0) =>
      if name0 = name then
        match Node.insert child0 segs m h with
        | .error e => .error e
        | .ok child => .ok (Node.mk hs st (some (name, child)) ca)
      else .error RegError.wildcardConflict
  | Node.mk hs st wc ca, [Segment.catchAll name], m, h =>
    match ca with
    | none => .ok (Node.mk hs st wc (some (name, [(m, h)])))
    | some (name0, hs0) =>
      if name0 = name then
        match setHandler hs0 m h with
        | .error e => .error e
        | .ok hs1 => .ok (Node.mk hs st wc (some (name, hs1)))
      else .error RegError.catchAllConflict
  | _, Segment.catchAll _ :: _ :: _, _, _ => .error RegError.malformedPattern

/-- Modelled from the spec: the registration interface (section 6): parse the
pattern and insert it under the method. -/
def TreeMux.Handle {H : Type} (t : TreeMux H) (method pattern : String) (handler : H) :
    Except RegError (TreeMux H) :=
  match parsePattern pattern with
  | .error e => .error e
  | .ok segs =>
    match t.root.insert segs method handler with
    | .error e => .error e
    | .ok root => .ok { t with root := root }

/-- A route registration: method, pattern and handler. -/
structure Route (H : Type) where
  method : String
  pattern : String
  handler : H

/-- Registration of the routes of a list, in order; the first failure stops
it. -/
def TreeMux.HandleAll {H : Type} (t : TreeMux H) : List (Route H) → Except RegError (TreeMux H)
  | [] => .ok t
  | rt :: rest =>
    match t.Handle rt.method rt.pattern rt.handler with
    | .error e => .error e
    | .ok t1 => TreeMux.HandleAll t1 rest

/-! ## Lookup -/

/-- Modelled from the spec: the match result (section 3): a handler with the
bindings made on the way; or the method mapping of the terminal node reached
first, with its bindings and the methods registered on all fully matching
nodes; or no match. -/
inductive SearchResult (H : Type) where
  | matched (handler : H) (params : List (String × String)) (catchAll : Option String)
  | methodNotAllowed (terminal : List (String × H)) (params : List (String × String))
      (catchAll : Option String) (allowed : List String)
  | notFound

/-- The result at a node where the path ends: a node with no handler at all
is not the end of any pattern. -/
def atTerminal {H : Type} (handlers : List (String × H)) (method : String)
    (params : List (String × String)) (ca : Option String) : SearchResult H :=
  match handlers.lookup method with
  | some h => SearchResult.matched h params ca
  | none =>
    if handlers.isEmpty then SearchResult.notFound
    else SearchResult.methodNotAllowed handlers params ca (handlers.map Prod.fst)

/-- A wildcard binding added in front of the bindings of a result. -/
def SearchResult.bind {H : Type} (name value : String) : SearchResult H → SearchResult H
  | SearchResult.matched h params ca => SearchResult.matched h ((name, value) :: params) ca
  | SearchResult.methodNotAllowed tbl params ca allowed =>
    SearchResult.methodNotAllowed tbl ((name, value) :: params) ca allowed
  | SearchResult.notFound => SearchResult.notFound

/-- The result of trying a branch and then the next one: a handler found
first wins; otherwise the first terminal node is remembered and the methods
are collected. -/
def SearchResult.orElse {H : Type} (a b : SearchResult H) : SearchResult H :=
  match a with
  | SearchResult.matched _ _ _ => a
  | SearchResult.notFound => b
  | SearchResult.methodNotAllowed tbl params ca allowed =>
    match b with
    | SearchResult.matched _ _ _ => b
    | SearchResult.methodNotAllowed _ _ _ allowed1 =>
      SearchResult.methodNotAllowed tbl params ca (allowed ∪ allowed1)
    | SearchResult.notFound => a

/-- Modelled from the spec: the Lookup Algorithm (section 4.3).  At each node
the static child of the next token is tried first, then the wildcard child on
one non-empty segment, then the catch-all child on all that remains; a branch
that ends without a handler for the method is left for the next one. -/
def Node.search {H : Type} : Node H → List String → String → SearchResult H
  | Node.mk hs _ _ _, [], m => atTerminal hs m [] none
  | Node.mk _ st wc ca, tok :: rest, m =>
    let viaStatic : SearchResult H :=
      match st.lookup tok with
      | some child => Node.search child rest m
      | none => SearchResult.notFound
    let viaWildcard : SearchResult H :=
      match wc with
      | some (name, child) =>
        if tok = "" then SearchResult.notFound
        else (Node.search child rest m).bind name tok
      | none => SearchResult.notFound
    let viaCatchAll : SearchResult H :=
      match ca with
      | some (name, hs) =>
        if tok = "" then SearchResult.notFound
        else atTerminal hs m [(name, joinTokens (tok :: rest))] (some (joinTokens (tok :: rest)))
      | none => SearchResult.notFound
    viaStatic.orElse (viaWildcard.orElse viaCatchAll)

/-- Modelled from the spec: lookup of a request path, with the HEAD rule of
section 4.3: when the search for HEAD matches the path but finds no HEAD
handler and the flag allows it, the search is made for GET and the GET handler
it finds stands in, with the bindings of its own match; MethodNotAllowed is
reported only if GET is absent as well. -/
def TreeMux.lookup {H : Type} (t : TreeMux H) (path method : String) : SearchResult H :=
  match t.root.search (pathTokens path) method with
  | SearchResult.methodNotAllowed tbl params ca allowed =>
    if method = "HEAD" ∧ t.HeadCanUseGet = true then
      match t.root.search (pathTokens path) "GET" with
      | SearchResult.matched g params1 ca1 => SearchResult.matched g params1 ca1
      | _ => SearchResult.methodNotAllowed tbl params ca allowed
    else SearchResult.methodNotAllowed tbl params ca allowed
  | res => res

/-- Whether the result is no match. -/
def SearchResult.isNotFound {H : Type} : SearchResult H → Bool
  | SearchResult.notFound => true
  | _ => false

/-! ## Dispatch -/

/-- What the router does with a request: it invokes a handler on the request
it prepared (status 200 unless the handler writes another), answers 405 with
the allowed methods, redirects, or answers 404. -/
inductive Response (H : Type) where
  | invoke (handler : H) (request : Request)
  | methodNotAllowed (allowed : List String)
  | redirect (behavior : RedirectBehavior) (location : String)
  | notFound
  deriving DecidableEq, Repr

/-- The named bindings attached to a context one after the other with
`setParam`, under `wayContextKey` of their names. -/
def bindParams (ctx : Context) : List (String × String) → Go Context
  | [] => .ok ctx
  | (name, value) :: rest =>
    match setParam (some ctx) (GoVal.wayContextKey name) value with
    | .error e => .error e
    | .ok ctx1 => bindParams ctx1 rest

/-- Modelled from the spec: delivery of the bindings (section 4.5): the
default context is put in place first, the named bindings are attached above
it, and the catch-all value also under the reserved key. -/
def TreeMux.invoke {H : Type} (t : TreeMux H) (r : Request) (handler : H)
    (params : List (String × String)) (ca : Option String) : Go (Response H) :=
  match t.setDefaultRequestContext r with
  | .error e => .error e
  | .ok r1 =>
    match bindParams r1.Context params with
    | .error e => .error e
    | .ok ctx1 =>
      match (match ca with
        | some v => setParam (some ctx1) wayCatchAllKey v
        | none => .ok ctx1) with
      | .error e => .error e
      | .ok ctx2 =>
        match r1.WithContext (some ctx2) with
        | .error e => .error e
        | .ok r2 => .ok (Response.invoke handler r2)

/-- The characters without the last one. -/
def dropLastChar : List Char → List Char
  | [] => []
  | [_] => []
  | c :: d :: cs => c :: dropLastChar (d :: cs)

/-- The path with the opposite trailing-slash state: a trailing slash is
stripped, or one is appended. -/
def toggleTrailingSlash (path : String) : String :=
  if endsWithSlash path.data then String.mk (dropLastChar path.data)
  else String.mk (path.data ++ ['/'])

/-- The redirect behaviour for a method: its override, or the default. -/
def TreeMux.redirectBehaviorFor {H : Type} (t : TreeMux H) (method : String) :
    Way.RedirectBehavior :=
  match t.RedirectMethodBehavior.lookup method with
  | some b => b
  | none => t.RedirectBehavior

/-- Modelled from the spec: the Redirect Resolver (section 4.4), consulted
when the exact path is not found: first the opposite trailing-slash state,
then the cleaned path, each under its switch; `clean` is the external path
cleaner. -/
def TreeMux.resolveRedirect {H : Type} (clean : String → String) (t : TreeMux H) (r : Request) :
    Response H :=
  if t.RedirectTrailingSlash = true ∧
      (t.lookup (toggleTrailingSlash r.Path) r.Method).isNotFound = false then
    Response.redirect (t.redirectBehaviorFor r.Method) (toggleTrailingSlash r.Path)
  else if t.RedirectCleanPath = true ∧ (t.lookup (clean r.Path) r.Method).isNotFound = false then
    Response.redirect (t.redirectBehaviorFor r.Method) (clean r.Path)
  else Response.notFound

/-- Modelled from the spec: the dispatch entry point (sections 2 and 6): the
handler found is invoked with the bindings in its request context; a path
matched without the method gives 405, or the OPTIONS fallback when one is set;
a path not found goes to the Redirect Resolver and else gives 404. -/
def TreeMux.ServeHTTP {H : Type} (clean : String → String) (t : TreeMux H) (r : Request) :
    Go (Response H) :=
  match t.lookup r.Path r.Method with
  | SearchResult.matched h params ca => t.invoke r h params ca
  | SearchResult.methodNotAllowed _ params ca allowed =>
    if r.Method = "OPTIONS" then
      match t.OptionsHandler with
      | some h => t.invoke r h params ca
      | none => .ok (Response.methodNotAllowed allowed)
    else .ok (Response.methodNotAllowed allowed)
  | SearchResult.notFound => .ok (t.resolveRedirect clean r)

/-! ## Reading the tree -/

/-- The method-to-handler mapping of the node at which a pattern ends, when
the tree has a node there. -/
def Node.tableAt {H : Type} : Node H → List Segment → Option (List (String × H))
  | Node.mk hs _ _ _, [] => some hs
  | Node.mk _ st _ _, Segment.static text :: segs =>
    match st.lookup text with
    | some child => Node.tableAt child segs
    | none => none
  | Node.mk _ _ wc _, Segment.wildcard name :: segs =>
    match wc with
    | some (name0, child) => if name0 = name then Node.tableAt child segs else none
    | none => none
  | Node.mk _ _ _ ca, [Segment.catchAll name] =>
    match ca with
    | some (name0, hs) => if name0 = name then some hs else none
    | none => none
  | _, Segment.catchAll _ :: _ :: _ => none

/-- The handler the tree holds for a pattern and a method. -/
def Node.handlerOf {H : Type} (n : Node H) (segs : List Segment) (m : String) : Option H :=
  match n.tableAt segs with
  | some tbl => tbl.lookup m
  | none => none

/-- The bindings of a list attached above a context, first one innermost. -/
def Context.withParams (ctx : Context) : List (String × String) → Context
  | [] => ctx
  | (name, value) :: rest =>
    Context.withParams (Context.valueCtx ctx (GoVal.wayContextKey name) (GoVal.string value)) rest

/-- The catch-all value, if any, attached above a context under the reserved
key. -/
def Context.withCatchAll (ctx : Context) : Option String → Context
  | some v => Context.valueCtx ctx wayCatchAllKey (GoVal.string v)
  | none => ctx

/-- The context a handler receives: the default context, or else the
context of the request, with the bindings of the match attached. -/
def TreeMux.handlerContext {H : Type} (t : TreeMux H) (r : Request) (params : List (String × String))
    (ca : Option String) : Context :=
  ((match t.DefaultContext with
    | some d => d
    | none => r.Context).withParams params).withCatchAll ca

/-- A pattern is registered at a node when some method has a handler there. -/
def Node.registered {H : Type} (n : Node H) (segs : List Segment) : Prop :=
  ∃ m h, n.handlerOf segs m = some h

/-- What a search result says about the patterns of a class `P` held by a
node. -/
def SearchSpec {H : Type} (P : List Segment → Prop) (n : Node H) (toks : List String) (m : String) :
    SearchResult H → Prop
  | SearchResult.matched h ps ca =>
    ∃ segs, P segs ∧ n.handlerOf segs m = some h ∧ matchSegments segs toks = some (ps, ca) ∧
      ∀ segs1 h1, P segs1 → n.handlerOf segs1 m = some h1 →
        (matchSegments segs1 toks).isSome = true → prefers segs segs1 = true
  | SearchResult.methodNotAllowed tbl ps ca _ =>
    (∃ segs, P segs ∧ n.tableAt segs = some tbl ∧ tbl ≠ [] ∧
      matchSegments segs toks = some (ps, ca) ∧
      ∀ segs1, P segs1 → n.registered segs1 →
        (matchSegments segs1 toks).isSome = true → prefers segs segs1 = true) ∧
    ∀ segs1 h1, P segs1 → n.handlerOf segs1 m = some h1 → matchSegments segs1 toks = none
  | SearchResult.notFound =>
    ∀ segs1, P segs1 → n.registered segs1 → matchSegments segs1 toks = none

/-! ## A path cleaner for the examples -/

/-- Removal of the dot segments: a single dot is dropped, a double dot drops
the segment before it; `acc` holds the segments kept, last one first. -/
def cleanSegments : List String → List String → List String
  | acc, [] => acc.reverse
  | acc, seg :: rest =>
    if seg = "." then cleanSegments acc rest
    else if seg = ".." then cleanSegments acc.tail rest
    else cleanSegments (seg :: acc) rest

/-- Modelled from the spec: a canonicalizing cleaner as section 4.4 describes
it (it collapses double dots, single dots and duplicate slashes); the cleaner
the router calls is an external library.  It serves the examples only: the
theorems hold for every cleaner. -/
def cleanPath (path : String) : String :=
  match cleanSegments [] (splitPath path).segments with
  | [] => "/"
  | seg :: segs =>
    "/" ++ joinTokens (seg :: segs) ++ (if (splitPath path).hadTrailingSlash then "/" else "")

/-! ## Example data -/

/-- The seven routes of `TestMethodNotAllowedFallthrough`; each handler is
named after the method and pattern it was registered with. -/
def fallthroughRoutes : List (Route String) :=
  [ ⟨"GET", "/apple/banana/cat", "GET /apple/banana/cat"⟩,
    ⟨"GET", "/apple/potato", "GET /apple/potato"⟩,
    ⟨"POST", "/apple/banana/:abc", "POST /apple/banana/:abc"⟩,
    ⟨"POST", "/apple/ban/def", "POST /apple/ban/def"⟩,
    ⟨"DELETE", "/apple/:seed", "DELETE /apple/:seed"⟩,
    ⟨"DELETE", "/apple/*path", "DELETE /apple/*path"⟩,
    ⟨"OPTIONS", "/apple/*path", "OPTIONS /apple/*path"⟩ ]

/-- The context of `TestContextParams`. -/
def idContext : Context :=
  Context.valueCtx Background (GoVal.wayContextKey "id") (GoVal.string "123")

/-- The default context of `TestDefaultContext`. -/
def abcContext : Context :=
  Context.valueCtx Background (GoVal.wayContextKey "abc") (GoVal.string "def")

/-- A router as made by `New`, with `abcContext` as its default context. -/
def abcMux : TreeMux String := { (New : TreeMux String) with DefaultContext := some abcContext }

/-- A request whose own context binds `id`. -/
def idRequest : Request := { Method := "GET", Path := "/abc", ctx := some idContext }

/-- The router with the routes of a list registered on a base router; the
base router itself when a registration fails. -/
def muxOf (t0 : TreeMux String) (routes : List (Route String)) : TreeMux String :=
  match t0.HandleAll routes with
  | .ok t => t
  | .error _ => t0

/-- The router of `TestMethodNotAllowedFallthrough`. -/
def fallthroughMux : TreeMux String := muxOf New fallthroughRoutes

/-- Two routes on overlapping patterns: GET on a wildcard, HEAD on a static
path the wildcard also matches. -/
def headRoutes : List (Route String) :=
  [ ⟨"GET", "/a/:x", "GET /a/:x"⟩,
    ⟨"HEAD", "/a/b", "HEAD /a/b"⟩ ]

/-- The router of `headRoutes`, with the given value of `HeadCanUseGet`. -/
def headMux (headCanUseGet : Bool) : TreeMux String :=
  muxOf { (New : TreeMux String) with HeadCanUseGet := headCanUseGet } headRoutes

/-- The router of `headRoutes` with `HeadCanUseGet` true, after HEAD is
registered on the wildcard pattern as well. -/
def headMuxMore : TreeMux String :=
  match (headMux true).Handle "HEAD" "/a/:x" "HEAD /a/:x" with
  | .ok t => t
  | .error _ => headMux true

/-- Two GET routes on overlapping patterns: a wildcard and a static path the
wildcard also matches. -/
def getRoutes : List (Route String) :=
  [ ⟨"GET", "/a/:x", "GET /a/:x"⟩,
    ⟨"GET", "/a/b", "GET /a/b"⟩ ]

/-- The router of `getRoutes`, as made by `New`. -/
def getMux : TreeMux String := muxOf New getRoutes

/-- The routes of `testContextGroupMethods`, under the group prefix
`/base/user`; each handler is named after its method. -/
def groupRoutes : List (Route String) :=
  [ ⟨"GET", "/base/user/:param", "GET"⟩,
    ⟨"POST", "/base/user/:param", "POST"⟩,
    ⟨"PATCH", "/base/user/:param", "PATCH"⟩,
    ⟨"PUT", "/base/user/:param", "PUT"⟩,
    ⟨"DELETE", "/base/user/:param", "DELETE"⟩ ]

/-- The router of `testContextGroupMethods`, with the given value of
`HeadCanUseGet`. -/
def groupMux (headCanUseGet : Bool) : TreeMux String :=
  muxOf { (New : TreeMux String) with HeadCanUseGet := headCanUseGet } groupRoutes

/-- The request `idRequest` with its context replaced by `abcContext`. -/
def replacedRequest : Request := { Method := "GET", Path := "/abc", ctx := some abcContext }

/-- The route of `TestDefaultContext`. -/
def abcRoutes : List (Route String) := [ ⟨"GET", "/abc", "GET /abc"⟩ ]

/-! ## Theorems: request contexts -/

theorem getParam_valueCtx_same (ctx : Context) (key : GoVal) (v : String) :
    getParam (some (Context.valueCtx ctx key (GoVal.string v))) key = .ok v := by
  simp [getParam, ctxValue, Context.Value]

theorem getParam_valueCtx_other (ctx : Context) (k key val : GoVal) (hne : k ≠ key) :
    getParam (some (Context.valueCtx ctx k val)) key = getParam (some ctx) key := by
  simp [getParam, ctxValue, Context.Value, hne]

theorem setParam_wayContextKey (ctx : Context) (n v : String) :
    setParam (some ctx) (GoVal.wayContextKey n) v
      = .ok (Context.valueCtx ctx (GoVal.wayContextKey n) (GoVal.string v)) := by
  simp [setParam, WithValue, GoVal.isComparable]

theorem setParam_wayCatchAllKey (ctx : Context) (v : String) :
    setParam (some ctx) wayCatchAllKey v
      = .ok (Context.valueCtx ctx wayCatchAllKey (GoVal.string v)) := by
  simp [setParam, WithValue, GoVal.isComparable, wayCatchAllKey]

theorem getParam_total (ctx : Context) (key : GoVal) : ∃ s, getParam (some ctx) key = .ok s := by
  unfold getParam ctxValue
  simp only
  split
  · exact ⟨_, rfl⟩
  · split <;> exact ⟨_, rfl⟩

/-- C5: retrieval undoes binding.  On every context, binding a name with
`setParam` under `wayContextKey` succeeds and `Param` then returns the bound
string; binding under `wayCatchAllKey` succeeds and `CatchAll` then returns the
bound string; and the context of `TestContextParams` gives `Param "id" =
"123"`. -/
theorem param_retrieves_binding (ctx : Context) (n v : String) :
    (∃ c, setParam (some ctx) (GoVal.wayContextKey n) v = .ok c ∧ Param (some c) n = .ok v) ∧
    (∃ c, setParam (some ctx) wayCatchAllKey v = .ok c ∧ CatchAll (some c) = .ok v) ∧
    (∃ c, WithValue (some Background) (GoVal.wayContextKey "id") (GoVal.string "123") = .ok c ∧
      Param (some c) "id" = .ok "123") := by
  refine ⟨⟨_, setParam_wayContextKey ctx n v, ?_⟩, ⟨_, setParam_wayCatchAllKey ctx v, ?_⟩,
    ⟨idContext, rfl, ?_⟩⟩
  · exact getParam_valueCtx_same ctx _ v
  · exact getParam_valueCtx_same ctx _ v
  · exact getParam_valueCtx_same Background _ "123"

/-- Counterexample to C6 as stated: on the nil interface, which both
functions accept as their context argument, `Param` and `CatchAll` panic with
a nil dereference and return no string. -/
theorem param_on_nil_context_counterexample :
    Param none "id" = .error Panic.nilDereference ∧
    CatchAll none = .error Panic.nilDereference ∧
    (¬ ∃ s, Param none "id" = .ok s) ∧ (¬ ∃ s, CatchAll none = .ok s) := by
  refine ⟨rfl, rfl, ?_, ?_⟩
  · rintro ⟨s, hs⟩
    have h0 : Param none "id" = .error Panic.nilDereference := rfl
    rw [h0] at hs
    cases hs
  · rintro ⟨s, hs⟩
    have h0 : CatchAll none = .error Panic.nilDereference := rfl
    rw [h0] at hs
    cases hs

/-- C6, amended: absent keys never fail on a non-nil context.  On every
non-nil context holding no value under `wayContextKey n`, `Param` returns the
empty string; on every non-nil context holding no value under
`wayCatchAllKey`, `CatchAll` returns the empty string; and on every non-nil
context both calls return a string, without a panic. -/
theorem param_absent_is_empty (ctx : Context) (n : String) :
    (ctx.Value (GoVal.wayContextKey n) = GoVal.nil → Param (some ctx) n = .ok "") ∧
    (ctx.Value wayCatchAllKey = GoVal.nil → CatchAll (some ctx) = .ok "") ∧
    (∃ s, Param (some ctx) n = .ok s) ∧ (∃ s, CatchAll (some ctx) = .ok s) := by
  refine ⟨?_, ?_, getParam_total ctx _, getParam_total ctx _⟩
  · intro h
    simp [Param, getParam, ctxValue, h]
  · intro h
    simp [CatchAll, getParam, ctxValue, h]

/-- Witness of C6, amended: the context of `TestContextParams` holds nothing under
`abc` nor under the catch-all key, and both reads give the empty string. -/
theorem param_absent_is_empty_witness :
    idContext.Value (GoVal.wayContextKey "abc") = GoVal.nil ∧
    idContext.Value wayCatchAllKey = GoVal.nil ∧
    Param (some idContext) "abc" = .ok "" ∧ CatchAll (some idContext) = .ok "" :=
  ⟨by decide, by decide, (param_absent_is_empty idContext "abc").1 (by decide),
    (param_absent_is_empty idContext "abc").2.1 (by decide)⟩

/-- C9: the catch-all key and the named-parameter keys never collide.  On
every context and for every name, the three dots included, binding the name
leaves `CatchAll` as it was, and binding the catch-all key leaves `Param` of
the name as it was. -/
theorem catchAll_key_separate (ctx : Context) (n v : String) :
    (∃ c, setParam (some ctx) (GoVal.wayContextKey n) v = .ok c ∧
      CatchAll (some c) = CatchAll (some ctx)) ∧
    (∃ c, setParam (some ctx) wayCatchAllKey v = .ok c ∧
      Param (some c) n = Param (some ctx) n) ∧
    (∃ c, setParam (some ctx) (GoVal.wayContextKey "...") v = .ok c ∧
      CatchAll (some c) = CatchAll (some ctx)) ∧
    (∃ c, setParam (some ctx) wayCatchAllKey v = .ok c ∧
      Param (some c) "..." = Param (some ctx) "...") := by
  refine ⟨⟨_, setParam_wayContextKey ctx n v, ?_⟩, ⟨_, setParam_wayCatchAllKey ctx v, ?_⟩,
    ⟨_, setParam_wayContextKey ctx "..." v, ?_⟩, ⟨_, setParam_wayCatchAllKey ctx v, ?_⟩⟩
  · exact getParam_valueCtx_other ctx _ _ _ (by simp [wayCatchAllKey])
  · exact getParam_valueCtx_other ctx _ _ _ (by simp [wayCatchAllKey])
  · exact getParam_valueCtx_other ctx _ _ _ (by simp [wayCatchAllKey])
  · exact getParam_valueCtx_other ctx _ _ _ (by simp [wayCatchAllKey])

/-- C10: binding one parameter leaves the others intact and the latest
binding wins.  For names `n1 ≠ n2`, binding `n1` leaves `Param` of `n2` as it
was; binding `n1` twice makes `Param` of `n1` the second string; and `setParam`
returns a new value context whose parent is the given context, itself
unchanged. -/
theorem setParam_frame (ctx : Context) (n1 n2 v w : String) (hne : n1 ≠ n2) :
    (∃ c, setParam (some ctx) (GoVal.wayContextKey n1) v = .ok c ∧
      Param (some c) n2 = Param (some ctx) n2) ∧
    (∃ c1 c2, setParam (some ctx) (GoVal.wayContextKey n1) v = .ok c1 ∧
      setParam (some c1) (GoVal.wayContextKey n1) w = .ok c2 ∧ Param (some c2) n1 = .ok w) ∧
    setParam (some ctx) (GoVal.wayContextKey n1) v
      = .ok (Context.valueCtx ctx (GoVal.wayContextKey n1) (GoVal.string v)) := by
  refine ⟨⟨_, setParam_wayContextKey ctx n1 v, ?_⟩,
    ⟨_, _, setParam_wayContextKey ctx n1 v, setParam_wayContextKey _ n1 w, ?_⟩,
    setParam_wayContextKey ctx n1 v⟩
  · exact getParam_valueCtx_other ctx _ _ _ (by simpa using hne)
  · exact getParam_valueCtx_same _ _ w

/-- Witness of C10 on the context of `TestContextParams`, with the names
`id` and `abc`. -/
theorem setParam_frame_witness :
    "abc" ≠ "id" ∧
    (∃ c, setParam (some idContext) (GoVal.wayContextKey "abc") "def" = .ok c ∧
      Param (some c) "id" = .ok "123") :=
  ⟨by decide, by
    obtain ⟨c, hc, hp⟩ := (setParam_frame idContext "abc" "id" "def" "ghi" (by decide)).1
    exact ⟨c, hc, hp.trans (getParam_valueCtx_same Background _ "123")⟩⟩

/-! ## Theorems: the tree -/

variable {H : Type}

theorem lookup_upsert {α : Type} (xs : List (String × α)) (k k1 : String) (v : α) :
    (upsert xs k v).lookup k1 = if k1 = k then some v else xs.lookup k1 := by
  induction xs with
  | nil => simp [upsert, List.lookup]; split <;> simp_all
  | cons x xs ih =>
    obtain ⟨k0, v0⟩ := x
    simp only [upsert]
    split
    · subst_vars
      simp [List.lookup]
      split <;> simp_all
    · simp [List.lookup, ih]
      split <;> simp_all

theorem lookup_append_single {α : Type} (hs : List (String × α)) (m m1 : String) (h : α) :
    (hs ++ [(m, h)]).lookup m1 =
      match hs.lookup m1 with
      | some x => some x
      | none => if m1 = m then some h else none := by
  induction hs with
  | nil => simp [List.lookup]; split <;> simp_all
  | cons x xs ih =>
    obtain ⟨k0, v0⟩ := x
    simp only [List.cons_append, List.lookup]
    split
    · rfl
    · exact ih

theorem tableAt_empty (segs : List Segment) :
    (Node.empty : Node H).tableAt segs = none ∨ (Node.empty : Node H).tableAt segs = some [] := by
  cases segs with
  | nil => right; rfl
  | cons s rest =>
    left
    cases s with
    | static t => simp [Node.empty, Node.tableAt]
    | wildcard x => simp [Node.empty, Node.tableAt]
    | catchAll x => cases rest <;> simp [Node.empty, Node.tableAt]

theorem handlerOf_empty (segs : List Segment) (m : String) :
    (Node.empty : Node H).handlerOf segs m = none := by
  unfold Node.handlerOf
  rcases tableAt_empty (H := H) segs with h | h <;> simp [h]

theorem setHandler_ok {hs hs1 : List (String × H)} {m : String} {h : H}
    (hset : setHandler hs m h = .ok hs1) : hs.lookup m = none ∧ hs1 = hs ++ [(m, h)] := by
  unfold setHandler at hset
  split at hset
  · cases hset
  · rename_i hnone
    injection hset with e
    exact ⟨hnone, e.symm⟩

theorem lookup_setHandler {hs hs1 : List (String × H)} {m : String} {h : H}
    (hset : setHandler hs m h = .ok hs1) (m1 : String) :
    hs1.lookup m1 = if m1 = m then some h else hs.lookup m1 := by
  obtain ⟨hnone, rfl⟩ := setHandler_ok hset
  rw [lookup_append_single]
  by_cases hm : m1 = m
  · subst hm; simp [hnone]
  · simp only [hm, if_false]
    cases hs.lookup m1 <;> rfl


theorem handlerOf_nil (hs : List (String × H)) (st : List (String × Node H))
    (wc : Option (String × Node H)) (ca : Option (String × List (String × H))) (m : String) :
    (Node.mk hs st wc ca).handlerOf [] m = hs.lookup m := rfl

theorem handlerOf_static (hs : List (String × H)) (st : List (String × Node H))
    (wc : Option (String × Node H)) (ca : Option (String × List (String × H)))
    (t : String) (segs : List Segment) (m : String) :
    (Node.mk hs st wc ca).handlerOf (Segment.static t :: segs) m =
      match st.lookup t with
      | some c => c.handlerOf segs m
      | none => none := by
  simp only [Node.handlerOf, Node.tableAt]
  cases st.lookup t <;> rfl

theorem handlerOf_wildcard (hs : List (String × H)) (st : List (String × Node H))
    (wc : Option (String × Node H)) (ca : Option (String × List (String × H)))
    (x : String) (segs : List Segment) (m : String) :
    (Node.mk hs st wc ca).handlerOf (Segment.wildcard x :: segs) m =
      match wc with
      | some (x0, c) => if x0 = x then c.handlerOf segs m else none
      | none => none := by
  simp only [Node.handlerOf, Node.tableAt]
  cases wc with
  | none => rfl
  | some p =>
    obtain ⟨x0, c⟩ := p
    by_cases hx : x0 = x <;> simp [hx]

theorem handlerOf_catchAll (hs : List (String × H)) (st : List (String × Node H))
    (wc : Option (String × Node H)) (ca : Option (String × List (String × H)))
    (x : String) (m : String) :
    (Node.mk hs st wc ca).handlerOf [Segment.catchAll x] m =
      match ca with
      | some (x0, tbl) => if x0 = x then tbl.lookup m else none
      | none => none := by
  simp only [Node.handlerOf, Node.tableAt]
  cases ca with
  | none => rfl
  | some p =>
    obtain ⟨x0, c⟩ := p
    by_cases hx : x0 = x <;> simp [hx]

theorem handlerOf_catchAll_more (n : Node H) (x : String) (s : Segment) (segs : List Segment)
    (m : String) : n.handlerOf (Segment.catchAll x :: s :: segs) m = none := by
  obtain ⟨hs, st, wc, ca⟩ := n
  simp [Node.handlerOf, Node.tableAt]

theorem handlerOf_insert : ∀ (segs : List Segment) (n n1 : Node H) (m : String) (h : H),
    n.insert segs m h = .ok n1 → ∀ (segs1 : List Segment) (m1 : String),
    n1.handlerOf segs1 m1 = if segs1 = segs ∧ m1 = m then some h else n.handlerOf segs1 m1 := by
  intro segs
  induction segs with
  | nil =>
    intro n n1 m h hins segs1 m1
    obtain ⟨hs, st, wc, ca⟩ := n
    simp only [Node.insert] at hins
    split at hins
    · cases hins
    · rename_i hs1 hset
      injection hins with e
      subst e
      cases segs1 with
      | nil =>
        simp only [handlerOf_nil, true_and]
        exact lookup_setHandler hset m1
      | cons s rest =>
        simp only [false_and, if_false, reduceCtorEq]
        cases s with
        | static t => simp only [handlerOf_static]
        | wildcard x => simp only [handlerOf_wildcard]
        | catchAll x =>
          cases rest with
          | nil => simp only [handlerOf_catchAll]
          | cons s2 r2 => simp only [handlerOf_catchAll_more]
  | cons s rest ih =>
    intro n n1 m h hins segs1 m1
    obtain ⟨hs, st, wc, ca⟩ := n
    cases s with
    | static t =>
      simp only [Node.insert] at hins
      split at hins
      · cases hins
      · rename_i child hchild
        injection hins with e
        subst e
        cases segs1 with
        | nil => simp [handlerOf_nil]
        | cons s1 rest1 =>
          cases s1 with
          | static t1 =>
            simp only [handlerOf_static, lookup_upsert]
            by_cases ht : t1 = t
            · subst ht
              simp only [if_true, ih _ _ _ _ hchild rest1 m1, List.cons.injEq, true_and]
              split
              · rfl
              · cases st.lookup t1 with
                | none => simp [handlerOf_empty]
                | some c => simp
            · have : ¬ (Segment.static t1 :: rest1 = Segment.static t :: rest ∧ m1 = m) := by
                intro hc; apply ht; injection hc.1 with h1 _; injection h1
              simp only [ht, this, if_false]
          | wildcard x1 => simp [handlerOf_wildcard]
          | catchAll x1 =>
            cases rest1 with
            | nil => simp [handlerOf_catchAll]
            | cons s2 r2 => simp [handlerOf_catchAll_more]
    | wildcard x =>
      have key : ∀ (c0 child : Node H), c0.insert rest m h = .ok child →
          (∀ r1, wc = none → c0.handlerOf r1 m1 = none) →
          (∀ x0 c, wc = some (x0, c) → x0 = x ∧ c = c0) →
          (Node.mk hs st (some (x, child)) ca).handlerOf segs1 m1 =
            if segs1 = Segment.wildcard x :: rest ∧ m1 = m then some h
            else (Node.mk hs st wc ca).handlerOf segs1 m1 := by
        intro c0 child hchild hnone hsome
        cases segs1 with
        | nil => simp [handlerOf_nil]
        | cons s1 rest1 =>
          cases s1 with
          | static t1 => simp [handlerOf_static]
          | wildcard x1 =>
            simp only [handlerOf_wildcard]
            by_cases hx : x = x1
            · subst hx
              simp only [if_true, ih _ _ _ _ hchild rest1 m1, List.cons.injEq, true_and]
              split
              · rfl
              · cases hwc : wc with
                | none => simp [hnone rest1 hwc]
                | some p =>
                  obtain ⟨x0, c⟩ := p
                  obtain ⟨rfl, rfl⟩ := hsome x0 c hwc
                  simp
            · have hne : ¬ (Segment.wildcard x1 :: rest1 = Segment.wildcard x :: rest ∧ m1 = m) := by
                intro hc; apply hx; injection hc.1 with h1 _; injection h1 with h2; exact h2.symm
              simp only [hx, hne, if_false]
              cases hwc : wc with
              | none => rfl
              | some p =>
                obtain ⟨x0, c⟩ := p
                obtain ⟨rfl, rfl⟩ := hsome x0 c hwc
                simp [hx]
          | catchAll x1 =>
            cases rest1 with
            | nil => simp [handlerOf_catchAll]
            | cons s2 r2 => simp [handlerOf_catchAll_more]
      simp only [Node.insert] at hins
      cases hwc : wc with
      | none =>
        rw [hwc] at hins
        simp only at hins
        split at hins
        · cases hins
        · rename_i child hchild
          injection hins with e
          subst e
          rw [← hwc]
          exact key Node.empty child hchild (fun r1 _ => handlerOf_empty r1 m1)
            (fun x0 c h0 => by rw [hwc] at h0; cases h0)
      | some p =>
        obtain ⟨x0, c0⟩ := p
        rw [hwc] at hins
        simp only at hins
        split at hins
        · rename_i hx
          split at hins
          · cases hins
          · rename_i child hchild
            injection hins with e
            subst e
            rw [← hwc]
            exact key c0 child hchild (fun r1 h0 => by rw [hwc] at h0; cases h0)
              (fun x1 c h0 => by
                rw [hwc] at h0; injection h0 with h1; injection h1 with h2 h3
                exact ⟨h2 ▸ hx, h3.symm⟩)
        · cases hins
    | catchAll x =>
      cases rest with
      | cons s2 r2 => simp [Node.insert] at hins
      | nil =>
        have key : ∀ (tbl0 tbl1 : List (String × H)),
            (∀ k, tbl1.lookup k = if k = m then some h else tbl0.lookup k) →
            (wc = wc → ca = none → tbl0 = []) →
            (∀ x0 tbl, ca = some (x0, tbl) → x0 = x ∧ tbl = tbl0) →
            (Node.mk hs st wc (some (x, tbl1))).handlerOf segs1 m1 =
              if segs1 = [Segment.catchAll x] ∧ m1 = m then some h
              else (Node.mk hs st wc ca).handlerOf segs1 m1 := by
          intro tbl0 tbl1 hl hnone hsome
          cases segs1 with
          | nil => simp [handlerOf_nil]
          | cons s1 rest1 =>
            cases s1 with
            | static t1 => simp [handlerOf_static]
            | wildcard x1 => simp [handlerOf_wildcard]
            | catchAll x1 =>
              cases rest1 with
              | cons s2 r2 => simp [handlerOf_catchAll_more]
              | nil =>
                simp only [handlerOf_catchAll]
                by_cases hx : x = x1
                · subst hx
                  simp only [if_true, hl, true_and]
                  split
                  · rfl
                  · cases hca : ca with
                    | none => simp [hnone rfl hca]
                    | some p =>
                      obtain ⟨x0, tbl⟩ := p
                      obtain ⟨rfl, rfl⟩ := hsome x0 tbl hca
                      simp
                · have hne : ¬ ([Segment.catchAll x1] = [Segment.catchAll x] ∧ m1 = m) := by
                    intro hc; apply hx; injection hc.1 with h1 _; injection h1 with h2
                    exact h2.symm
                  simp only [hx, hne, if_false]
                  cases hca : ca with
                  | none => rfl
                  | some p =>
                    obtain ⟨x0, tbl⟩ := p
                    obtain ⟨rfl, rfl⟩ := hsome x0 tbl hca
                    simp [hx]
        simp only [Node.insert] at hins
        cases hca : ca with
        | none =>
          rw [hca] at hins
          simp only at hins
          injection hins with e
          subst e
          rw [← hca]
          exact key [] [(m, h)] (fun k => by simp [List.lookup]; split <;> simp_all)
            (fun _ _ => rfl) (fun x0 tbl h0 => by rw [hca] at h0; cases h0)
        | some p =>
          obtain ⟨x0, tbl0⟩ := p
          rw [hca] at hins
          simp only at hins
          split at hins
          · rename_i hx
            split at hins
            · cases hins
            · rename_i tbl1 hset
              injection hins with e
              subst e
              rw [← hca]
              exact key tbl0 tbl1 (lookup_setHandler hset) (fun _ h0 => by rw [hca] at h0; cases h0)
                (fun x1 tbl h0 => by
                  rw [hca] at h0; injection h0 with h1; injection h1 with h2 h3
                  exact ⟨h2 ▸ hx, h3.symm⟩)
          · cases hins

theorem handlerOf_none_of_insert : ∀ (segs : List Segment) (n n1 : Node H) (m : String) (h : H),
    n.insert segs m h = .ok n1 → n.handlerOf segs m = none := by
  intro segs
  induction segs with
  | nil =>
    intro n n1 m h hins
    obtain ⟨hs, st, wc, ca⟩ := n
    simp only [Node.insert] at hins
    split at hins
    · cases hins
    · rename_i hs1 hset
      exact (setHandler_ok hset).1
  | cons s rest ih =>
    intro n n1 m h hins
    obtain ⟨hs, st, wc, ca⟩ := n
    cases s with
    | static t =>
      simp only [Node.insert] at hins
      split at hins
      · cases hins
      · rename_i child hchild
        have := ih _ _ _ _ hchild
        rw [handlerOf_static]
        cases hl : st.lookup t with
        | none => rfl
        | some c => simpa [hl] using this
    | wildcard x =>
      simp only [Node.insert] at hins
      rw [handlerOf_wildcard]
      cases hwc : wc with
      | none => rfl
      | some p =>
        obtain ⟨x0, c0⟩ := p
        rw [hwc] at hins
        simp only at hins
        split at hins
        · rename_i hx
          split at hins
          · cases hins
          · rename_i child hchild
            simp [hx, ih _ _ _ _ hchild]
        · cases hins
    | catchAll x =>
      cases rest with
      | cons s2 r2 => simp [Node.insert] at hins
      | nil =>
        simp only [Node.insert] at hins
        rw [handlerOf_catchAll]
        cases hca : ca with
        | none => rfl
        | some p =>
          obtain ⟨x0, tbl0⟩ := p
          rw [hca] at hins
          simp only at hins
          split at hins
          · rename_i hx
            split at hins
            · cases hins
            · rename_i tbl1 hset
              simp [hx, (setHandler_ok hset).1]
          · cases hins

theorem Handle_spec {t t1 : TreeMux H} {m p : String} {h : H} (hh : t.Handle m p h = .ok t1) :
    t1 = { t with root := t1.root } ∧
    ∃ segs, parsePattern p = .ok segs ∧ t.root.handlerOf segs m = none ∧
      ∀ segs1 m1, t1.root.handlerOf segs1 m1 =
        if segs1 = segs ∧ m1 = m then some h else t.root.handlerOf segs1 m1 := by
  unfold TreeMux.Handle at hh
  split at hh
  · cases hh
  · rename_i segs hparse
    split at hh
    · cases hh
    · rename_i root hins
      injection hh with e
      subst e
      exact ⟨rfl, segs, hparse, handlerOf_none_of_insert _ _ _ _ _ hins,
        handlerOf_insert _ _ _ _ _ hins⟩

theorem HandleAll_spec : ∀ (routes : List (Route H)) (t0 t : TreeMux H),
    t0.HandleAll routes = .ok t →
    t = { t0 with root := t.root } ∧
    ∀ segs m h, t.root.handlerOf segs m = some h ↔
      (t0.root.handlerOf segs m = some h ∨
        ∃ rt ∈ routes, rt.method = m ∧ parsePattern rt.pattern = .ok segs ∧ rt.handler = h) := by
  intro routes
  induction routes with
  | nil =>
    intro t0 t hall
    simp only [TreeMux.HandleAll] at hall
    injection hall with e
    subst e
    simp
  | cons rt rest ih =>
    intro t0 t hall
    simp only [TreeMux.HandleAll] at hall
    split at hall
    · cases hall
    · rename_i t1 h1
      obtain ⟨hcfg1, segs0, hparse, hnone, hins⟩ := Handle_spec h1
      obtain ⟨hcfg, hiff⟩ := ih t1 t hall
      refine ⟨?_, ?_⟩
      · rw [hcfg, hcfg1]
      · intro segs m h
        rw [hiff segs m h, hins segs m]
        constructor
        · rintro (h2 | ⟨rt1, hmem, hm, hp, hh⟩)
          · split at h2
            · rename_i hc
              right
              refine ⟨rt, List.mem_cons_self _ _, hc.2.symm, ?_, ?_⟩
              · rw [hparse, hc.1]
              · injection h2
            · exact Or.inl h2
          · exact Or.inr ⟨rt1, List.mem_cons_of_mem _ hmem, hm, hp, hh⟩
        · rintro (h2 | ⟨rt1, hmem, hm, hp, hh⟩)
          · left
            split
            · rename_i hc
              rw [hc.1, hc.2, hnone] at h2
              cases h2
            · exact h2
          · rcases List.mem_cons.1 hmem with rfl | hmem
            · left
              have : segs = segs0 := by rw [hparse] at hp; injection hp with e; exact e.symm
              simp [this, hm, hh]
            · exact Or.inr ⟨rt1, hmem, hm, hp, hh⟩

theorem registered_of_handlerOf {n : Node H} {segs : List Segment} {m : String} {h : H}
    (hh : n.handlerOf segs m = some h) : n.registered segs := ⟨m, h, hh⟩

theorem isSome_of_eq_some {α : Type} {o : Option α} {a : α} (h : o = some a) : o.isSome = true := by
  rw [h]; rfl

theorem eq_none_of_not_isSome {α : Type} {o : Option α} (h : ¬ o.isSome = true) : o = none := by
  cases o with
  | none => rfl
  | some a => exact absurd rfl h

theorem orElse_spec {P Q : List Segment → Prop} {n : Node H} {toks : List String} {m : String}
    {a b : SearchResult H} (ha : SearchSpec P n toks m a) (hb : SearchSpec Q n toks m b)
    (hPQ : ∀ s s1, P s → Q s1 → prefers s s1 = true) :
    SearchSpec (fun s => P s ∨ Q s) n toks m (a.orElse b) := by
  cases a with
  | matched h ps ca =>
    obtain ⟨segs, hP, hh, hm, hmin⟩ := ha
    refine ⟨segs, Or.inl hP, hh, hm, ?_⟩
    intro segs1 h1 hPQ1 hh1 hm1
    rcases hPQ1 with hP1 | hQ1
    · exact hmin segs1 h1 hP1 hh1 hm1
    · exact hPQ _ _ hP hQ1
  | notFound =>
    cases b with
    | matched h ps ca =>
      obtain ⟨segs, hQ, hh, hm, hmin⟩ := hb
      refine ⟨segs, Or.inr hQ, hh, hm, ?_⟩
      intro segs1 h1 hPQ1 hh1 hm1
      rcases hPQ1 with hP1 | hQ1
      · have := ha segs1 hP1 (registered_of_handlerOf hh1)
        rw [this] at hm1; cases hm1
      · exact hmin segs1 h1 hQ1 hh1 hm1
    | methodNotAllowed tbl ps ca al =>
      obtain ⟨⟨segs, hQ, ht, hne, hm, hmin⟩, hno⟩ := hb
      refine ⟨⟨segs, Or.inr hQ, ht, hne, hm, ?_⟩, ?_⟩
      · intro segs1 hPQ1 hr1 hm1
        rcases hPQ1 with hP1 | hQ1
        · have := ha segs1 hP1 hr1
          rw [this] at hm1; cases hm1
        · exact hmin segs1 hQ1 hr1 hm1
      · intro segs1 h1 hPQ1 hh1
        rcases hPQ1 with hP1 | hQ1
        · exact ha segs1 hP1 (registered_of_handlerOf hh1)
        · exact hno segs1 h1 hQ1 hh1
    | notFound =>
      intro segs1 hPQ1 hr1
      rcases hPQ1 with hP1 | hQ1
      · exact ha segs1 hP1 hr1
      · exact hb segs1 hQ1 hr1
  | methodNotAllowed tbl ps ca al =>
    obtain ⟨⟨segs, hP, ht, hne, hm, hmin⟩, hno⟩ := ha
    cases b with
    | matched h1 ps1 ca1 =>
      obtain ⟨segs2, hQ, hh, hm2, hmin2⟩ := hb
      refine ⟨segs2, Or.inr hQ, hh, hm2, ?_⟩
      intro segs1 h2 hPQ1 hh1 hm1
      rcases hPQ1 with hP1 | hQ1
      · have := hno segs1 h2 hP1 hh1
        rw [this] at hm1; cases hm1
      · exact hmin2 segs1 h2 hQ1 hh1 hm1
    | methodNotAllowed tbl1 ps1 ca1 al1 =>
      obtain ⟨_, hno2⟩ := hb
      refine ⟨⟨segs, Or.inl hP, ht, hne, hm, ?_⟩, ?_⟩
      · intro segs1 hPQ1 hr1 hm1
        rcases hPQ1 with hP1 | hQ1
        · exact hmin segs1 hP1 hr1 hm1
        · exact hPQ _ _ hP hQ1
      · intro segs1 h1 hPQ1 hh1
        rcases hPQ1 with hP1 | hQ1
        · exact hno segs1 h1 hP1 hh1
        · exact hno2 segs1 h1 hQ1 hh1
    | notFound =>
      refine ⟨⟨segs, Or.inl hP, ht, hne, hm, ?_⟩, ?_⟩
      · intro segs1 hPQ1 hr1 hm1
        rcases hPQ1 with hP1 | hQ1
        · exact hmin segs1 hP1 hr1 hm1
        · exact hPQ _ _ hP hQ1
      · intro segs1 h1 hPQ1 hh1
        rcases hPQ1 with hP1 | hQ1
        · exact hno segs1 h1 hP1 hh1
        · exact hb segs1 hQ1 (registered_of_handlerOf hh1)

theorem tableAt_static (hs : List (String × H)) (st : List (String × Node H))
    (wc : Option (String × Node H)) (ca : Option (String × List (String × H)))
    (t : String) (segs : List Segment) :
    (Node.mk hs st wc ca).tableAt (Segment.static t :: segs) =
      match st.lookup t with
      | some c => c.tableAt segs
      | none => none := by
  rfl

theorem tableAt_wildcard (hs : List (String × H)) (st : List (String × Node H))
    (wc : Option (String × Node H)) (ca : Option (String × List (String × H)))
    (x : String) (segs : List Segment) :
    (Node.mk hs st wc ca).tableAt (Segment.wildcard x :: segs) =
      match wc with
      | some (x0, c) => if x0 = x then c.tableAt segs else none
      | none => none := by
  rfl

theorem tableAt_catchAll (hs : List (String × H)) (st : List (String × Node H))
    (wc : Option (String × Node H)) (ca : Option (String × List (String × H))) (x : String) :
    (Node.mk hs st wc ca).tableAt [Segment.catchAll x] =
      match ca with
      | some (x0, tbl) => if x0 = x then some tbl else none
      | none => none := by
  rfl

theorem prefers_cons_same (s : Segment) (a b : List Segment) :
    prefers (s :: a) (s :: b) = prefers a b := by
  simp [prefers]

theorem matchSegments_static_cons (t tok : String) (segs : List Segment) (rest : List String) :
    matchSegments (Segment.static t :: segs) (tok :: rest) =
      if t = tok then matchSegments segs rest else none := by
  simp only [matchSegments]

theorem matchSegments_wildcard_cons (x tok : String) (segs : List Segment) (rest : List String) :
    matchSegments (Segment.wildcard x :: segs) (tok :: rest) =
      if tok = "" then none
      else
        match matchSegments segs rest with
        | some (params, ca) => some ((x, tok) :: params, ca)
        | none => none := by
  rfl

theorem matchSegments_catchAll_cons (x tok : String) (segs : List Segment) (rest : List String) :
    matchSegments (Segment.catchAll x :: segs) (tok :: rest) =
      if segs = [] then
        if tok = "" then none
        else some ([(x, joinTokens (tok :: rest))], some (joinTokens (tok :: rest)))
      else none := by
  cases segs with
  | nil => simp only [matchSegments, if_true]
  | cons s r => simp [matchSegments]

theorem matchSegments_nil_cons (tok : String) (rest : List String) :
    matchSegments [] (tok :: rest) = none := by
  simp [matchSegments]

theorem matchSegments_cons_nil (s : Segment) (segs : List Segment) :
    matchSegments (s :: segs) [] = none := by
  cases s with
  | static t => simp [matchSegments]
  | wildcard x => simp [matchSegments]
  | catchAll x => cases segs <;> simp [matchSegments]

theorem static_spec {hs : List (String × H)} {st : List (String × Node H)}
    {wc : Option (String × Node H)} {ca : Option (String × List (String × H))}
    {tok : String} {rest : List String} {m : String} {child : Node H}
    (hl : st.lookup tok = some child) {r : SearchResult H}
    (hr : SearchSpec (fun _ => True) child rest m r) :
    SearchSpec (fun s => ∃ t r1, s = Segment.static t :: r1) (Node.mk hs st wc ca)
      (tok :: rest) m r := by
  have hcov : ∀ t r1, (matchSegments (Segment.static t :: r1) (tok :: rest)).isSome = true →
      t = tok ∧ (matchSegments r1 rest).isSome = true := by
    intro t r1 hm
    rw [matchSegments_static_cons] at hm
    split at hm
    · exact ⟨by assumption, hm⟩
    · cases hm
  have hh : ∀ r1 m1, (Node.mk hs st wc ca).handlerOf (Segment.static tok :: r1) m1
      = child.handlerOf r1 m1 := by
    intro r1 m1; rw [handlerOf_static, hl]
  have hmt : ∀ r1, matchSegments (Segment.static tok :: r1) (tok :: rest)
      = matchSegments r1 rest := by
    intro r1; rw [matchSegments_static_cons, if_pos rfl]
  cases r with
  | matched h ps c =>
    obtain ⟨segs, -, hh0, hm, hmin⟩ := hr
    refine ⟨Segment.static tok :: segs, ⟨tok, segs, rfl⟩, (hh _ _).trans hh0, (hmt _).trans hm, ?_⟩
    rintro segs1 h1 ⟨t, r1, rfl⟩ hh1 hm1
    obtain ⟨rfl, hm2⟩ := hcov t r1 hm1
    rw [prefers_cons_same]
    exact hmin r1 h1 trivial ((hh _ _).symm.trans hh1) hm2
  | methodNotAllowed tbl ps c al =>
    obtain ⟨⟨segs, -, ht, hne, hm, hmin⟩, hno⟩ := hr
    refine ⟨⟨Segment.static tok :: segs, ⟨tok, segs, rfl⟩, ?_, hne, (hmt _).trans hm, ?_⟩, ?_⟩
    · rw [tableAt_static, hl]; exact ht
    · rintro segs1 ⟨t, r1, rfl⟩ ⟨m1, h1, hh1⟩ hm1
      obtain ⟨rfl, hm2⟩ := hcov t r1 hm1
      rw [prefers_cons_same]
      exact hmin r1 trivial ⟨m1, h1, (hh _ _).symm.trans hh1⟩ hm2
    · rintro segs1 h1 ⟨t, r1, rfl⟩ hh1
      by_cases hm1 : (matchSegments (Segment.static t :: r1) (tok :: rest)).isSome = true
      · obtain ⟨rfl, hm2⟩ := hcov t r1 hm1
        rw [hmt]
        exact hno r1 h1 trivial ((hh _ _).symm.trans hh1)
      · exact eq_none_of_not_isSome hm1
  | notFound =>
    rintro segs1 ⟨t, r1, rfl⟩ ⟨m1, h1, hh1⟩
    by_cases hm1 : (matchSegments (Segment.static t :: r1) (tok :: rest)).isSome = true
    · obtain ⟨rfl, hm2⟩ := hcov t r1 hm1
      rw [hmt]
      exact hr r1 trivial ⟨m1, h1, (hh _ _).symm.trans hh1⟩
    · exact eq_none_of_not_isSome hm1

theorem static_none_spec {hs : List (String × H)} {st : List (String × Node H)}
    {wc : Option (String × Node H)} {ca : Option (String × List (String × H))}
    {tok : String} {rest : List String} {m : String} (hl : st.lookup tok = none) :
    SearchSpec (fun s => ∃ t r1, s = Segment.static t :: r1) (Node.mk hs st wc ca)
      (tok :: rest) m SearchResult.notFound := by
  rintro segs1 ⟨t, r1, rfl⟩ ⟨m1, h1, hh1⟩
  rw [matchSegments_static_cons]
  split
  · rename_i ht
    subst ht
    rw [handlerOf_static, hl] at hh1
    cases hh1
  · rfl

theorem wildcard_spec {hs : List (String × H)} {st : List (String × Node H)}
    {ca : Option (String × List (String × H))} {x0 : String} {child : Node H}
    {tok : String} {rest : List String} {m : String} (htok : tok ≠ "") {r : SearchResult H}
    (hr : SearchSpec (fun _ => True) child rest m r) :
    SearchSpec (fun s => ∃ x r1, s = Segment.wildcard x :: r1)
      (Node.mk hs st (some (x0, child)) ca) (tok :: rest) m (r.bind x0 tok) := by
  have hh : ∀ r1 m1, (Node.mk hs st (some (x0, child)) ca).handlerOf (Segment.wildcard x0 :: r1) m1
      = child.handlerOf r1 m1 := by
    intro r1 m1; rw [handlerOf_wildcard]; simp
  have hname : ∀ x r1 m1 h1,
      (Node.mk hs st (some (x0, child)) ca).handlerOf (Segment.wildcard x :: r1) m1 = some h1 →
      x = x0 := by
    intro x r1 m1 h1 hh1
    rw [handlerOf_wildcard] at hh1
    simp only at hh1
    split at hh1
    · rename_i hx; exact hx.symm
    · cases hh1
  have hmt : ∀ r1, matchSegments (Segment.wildcard x0 :: r1) (tok :: rest) =
      match matchSegments r1 rest with
      | some (params, c) => some ((x0, tok) :: params, c)
      | none => none := by
    intro r1; rw [matchSegments_wildcard_cons, if_neg htok]
  have hcov : ∀ r1, (matchSegments (Segment.wildcard x0 :: r1) (tok :: rest)).isSome = true →
      (matchSegments r1 rest).isSome = true := by
    intro r1 hm
    rw [hmt] at hm
    cases hmr : matchSegments r1 rest with
    | none => rw [hmr] at hm; cases hm
    | some p => rfl
  cases r with
  | matched h ps c =>
    obtain ⟨segs, -, hh0, hm, hmin⟩ := hr
    refine ⟨Segment.wildcard x0 :: segs, ⟨x0, segs, rfl⟩, (hh _ _).trans hh0, ?_, ?_⟩
    · rw [hmt, hm]
    · rintro segs1 h1 ⟨x, r1, rfl⟩ hh1 hm1
      obtain rfl := hname x r1 m h1 hh1
      rw [prefers_cons_same]
      exact hmin r1 h1 trivial ((hh _ _).symm.trans hh1) (hcov r1 hm1)
  | methodNotAllowed tbl ps c al =>
    obtain ⟨⟨segs, -, ht, hne, hm, hmin⟩, hno⟩ := hr
    refine ⟨⟨Segment.wildcard x0 :: segs, ⟨x0, segs, rfl⟩, ?_, hne, ?_, ?_⟩, ?_⟩
    · rw [tableAt_wildcard]; simpa using ht
    · rw [hmt, hm]
    · rintro segs1 ⟨x, r1, rfl⟩ ⟨m1, h1, hh1⟩ hm1
      obtain rfl := hname x r1 m1 h1 hh1
      rw [prefers_cons_same]
      exact hmin r1 trivial ⟨m1, h1, (hh _ _).symm.trans hh1⟩ (hcov r1 hm1)
    · rintro segs1 h1 ⟨x, r1, rfl⟩ hh1
      obtain rfl := hname x r1 m h1 hh1
      rw [hmt, hno r1 h1 trivial ((hh _ _).symm.trans hh1)]
  | notFound =>
    rintro segs1 ⟨x, r1, rfl⟩ ⟨m1, h1, hh1⟩
    obtain rfl := hname x r1 m1 h1 hh1
    rw [hmt, hr r1 trivial ⟨m1, h1, (hh _ _).symm.trans hh1⟩]

theorem wildcard_none_spec {hs : List (String × H)} {st : List (String × Node H)}
    {wc : Option (String × Node H)} {ca : Option (String × List (String × H))}
    {tok : String} {rest : List String} {m : String} (hwc : wc = none ∨ tok = "") :
    SearchSpec (fun s => ∃ x r1, s = Segment.wildcard x :: r1) (Node.mk hs st wc ca)
      (tok :: rest) m SearchResult.notFound := by
  rintro segs1 ⟨x, r1, rfl⟩ ⟨m1, h1, hh1⟩
  rcases hwc with rfl | rfl
  · rw [handlerOf_wildcard] at hh1
    cases hh1
  · rw [matchSegments_wildcard_cons, if_pos rfl]

theorem lookup_of_ne_nil {tbl : List (String × H)} (hne : tbl ≠ []) :
    ∃ m h, tbl.lookup m = some h := by
  cases tbl with
  | nil => exact absurd rfl hne
  | cons p rest =>
    obtain ⟨k, v⟩ := p
    exact ⟨k, v, by simp [List.lookup]⟩

theorem atTerminal_cases (tbl : List (String × H)) (m : String) (ps : List (String × String))
    (c : Option String) :
    (∃ h, tbl.lookup m = some h ∧ atTerminal tbl m ps c = SearchResult.matched h ps c) ∨
    (tbl.lookup m = none ∧ tbl = [] ∧ atTerminal tbl m ps c = SearchResult.notFound) ∨
    (tbl.lookup m = none ∧ tbl ≠ [] ∧
      atTerminal tbl m ps c = SearchResult.methodNotAllowed tbl ps c (tbl.map Prod.fst)) := by
  unfold atTerminal
  cases hl : tbl.lookup m with
  | some h => exact Or.inl ⟨h, rfl, rfl⟩
  | none =>
    right
    cases tbl with
    | nil => exact Or.inl ⟨rfl, rfl, rfl⟩
    | cons p rest => exact Or.inr ⟨rfl, by simp, rfl⟩

theorem catchAll_spec {hs : List (String × H)} {st : List (String × Node H)}
    {wc : Option (String × Node H)} {x0 : String} {tbl : List (String × H)}
    {tok : String} {rest : List String} {m : String} (htok : tok ≠ "") :
    SearchSpec (fun s => ∃ x r1, s = Segment.catchAll x :: r1)
      (Node.mk hs st wc (some (x0, tbl))) (tok :: rest) m
      (atTerminal tbl m [(x0, joinTokens (tok :: rest))] (some (joinTokens (tok :: rest)))) := by
  have hh : ∀ m1, (Node.mk hs st wc (some (x0, tbl))).handlerOf [Segment.catchAll x0] m1
      = tbl.lookup m1 := by
    intro m1; rw [handlerOf_catchAll]; simp
  have hname : ∀ x r1 m1 h1,
      (Node.mk hs st wc (some (x0, tbl))).handlerOf (Segment.catchAll x :: r1) m1 = some h1 →
      x = x0 ∧ r1 = [] := by
    intro x r1 m1 h1 hh1
    cases r1 with
    | cons s2 r2 => rw [handlerOf_catchAll_more] at hh1; cases hh1
    | nil =>
      rw [handlerOf_catchAll] at hh1
      simp only at hh1
      split at hh1
      · rename_i hx; exact ⟨hx.symm, rfl⟩
      · cases hh1
  have hmt : matchSegments [Segment.catchAll x0] (tok :: rest) =
      some ([(x0, joinTokens (tok :: rest))], some (joinTokens (tok :: rest))) := by
    rw [matchSegments_catchAll_cons, if_pos rfl, if_neg htok]
  rcases atTerminal_cases tbl m [(x0, joinTokens (tok :: rest))] (some (joinTokens (tok :: rest)))
    with ⟨h, hl, he⟩ | ⟨hl, hnil, he⟩ | ⟨hl, hne, he⟩
  · rw [he]
    refine ⟨[Segment.catchAll x0], ⟨x0, [], rfl⟩, (hh m).trans hl, hmt, ?_⟩
    rintro segs1 h1 ⟨x, r1, rfl⟩ hh1 -
    obtain ⟨rfl, rfl⟩ := hname x r1 m h1 hh1
    simp [prefers]
  · rw [he]
    rintro segs1 ⟨x, r1, rfl⟩ ⟨m1, h1, hh1⟩
    obtain ⟨rfl, rfl⟩ := hname x r1 m1 h1 hh1
    rw [hh, hnil] at hh1
    cases hh1
  · rw [he]
    refine ⟨⟨[Segment.catchAll x0], ⟨x0, [], rfl⟩, ?_, hne, hmt, ?_⟩, ?_⟩
    · rw [tableAt_catchAll]; simp
    · rintro segs1 ⟨x, r1, rfl⟩ ⟨m1, h1, hh1⟩ -
      obtain ⟨rfl, rfl⟩ := hname x r1 m1 h1 hh1
      simp [prefers]
    · rintro segs1 h1 ⟨x, r1, rfl⟩ hh1
      obtain ⟨rfl, rfl⟩ := hname x r1 m h1 hh1
      rw [hh, hl] at hh1
      cases hh1

theorem catchAll_none_spec {hs : List (String × H)} {st : List (String × Node H)}
    {wc : Option (String × Node H)} {ca : Option (String × List (String × H))}
    {tok : String} {rest : List String} {m : String} (hca : ca = none ∨ tok = "") :
    SearchSpec (fun s => ∃ x r1, s = Segment.catchAll x :: r1) (Node.mk hs st wc ca)
      (tok :: rest) m SearchResult.notFound := by
  rintro segs1 ⟨x, r1, rfl⟩ ⟨m1, h1, hh1⟩
  rcases hca with rfl | rfl
  · cases r1 with
    | cons s2 r2 => rw [handlerOf_catchAll_more] at hh1; cases hh1
    | nil => rw [handlerOf_catchAll] at hh1; cases hh1
  · rw [matchSegments_catchAll_cons]
    split
    · rw [if_pos rfl]
    · rfl

theorem spec_of_cover {P : List Segment → Prop} {n : Node H} {toks : List String} {m : String}
    {r : SearchResult H} (hr : SearchSpec P n toks m r)
    (hcov : ∀ segs, (matchSegments segs toks).isSome = true → P segs) :
    SearchSpec (fun _ => True) n toks m r := by
  cases r with
  | matched h ps c =>
    obtain ⟨segs, hP, hh, hm, hmin⟩ := hr
    exact ⟨segs, trivial, hh, hm, fun segs1 h1 _ hh1 hm1 => hmin segs1 h1 (hcov _ hm1) hh1 hm1⟩
  | methodNotAllowed tbl ps c al =>
    obtain ⟨⟨segs, hP, ht, hne, hm, hmin⟩, hno⟩ := hr
    refine ⟨⟨segs, trivial, ht, hne, hm, fun segs1 _ hr1 hm1 => hmin segs1 (hcov _ hm1) hr1 hm1⟩, ?_⟩
    intro segs1 h1 _ hh1
    by_cases hm1 : (matchSegments segs1 toks).isSome = true
    · exact hno segs1 h1 (hcov _ hm1) hh1
    · exact eq_none_of_not_isSome hm1
  | notFound =>
    intro segs1 _ hr1
    by_cases hm1 : (matchSegments segs1 toks).isSome = true
    · exact hr segs1 (hcov _ hm1) hr1
    · exact eq_none_of_not_isSome hm1

theorem search_cons (hs : List (String × H)) (st : List (String × Node H))
    (wc : Option (String × Node H)) (ca : Option (String × List (String × H)))
    (tok : String) (rest : List String) (m : String) :
    (Node.mk hs st wc ca).search (tok :: rest) m =
      (match st.lookup tok with
        | some child => child.search rest m
        | none => SearchResult.notFound).orElse
      ((match wc with
        | some (name, child) =>
          if tok = "" then SearchResult.notFound else (child.search rest m).bind name tok
        | none => SearchResult.notFound).orElse
      (match ca with
        | some (name, tbl) =>
          if tok = "" then SearchResult.notFound
          else atTerminal tbl m [(name, joinTokens (tok :: rest))] (some (joinTokens (tok :: rest)))
        | none => SearchResult.notFound)) := by
  rfl

theorem static_branch (hs : List (String × H)) (st : List (String × Node H))
    (wc : Option (String × Node H)) (ca : Option (String × List (String × H)))
    (tok : String) (rest : List String) (m : String)
    (ih : ∀ child : Node H, SearchSpec (fun _ => True) child rest m (child.search rest m)) :
    SearchSpec (fun s => ∃ t r1, s = Segment.static t :: r1) (Node.mk hs st wc ca)
      (tok :: rest) m
      (match st.lookup tok with
        | some child => child.search rest m
        | none => SearchResult.notFound) := by
  cases hl : st.lookup tok with
  | none => exact static_none_spec hl
  | some child => exact static_spec hl (ih child)

theorem wildcard_branch (hs : List (String × H)) (st : List (String × Node H))
    (wc : Option (String × Node H)) (ca : Option (String × List (String × H)))
    (tok : String) (rest : List String) (m : String)
    (ih : ∀ child : Node H, SearchSpec (fun _ => True) child rest m (child.search rest m)) :
    SearchSpec (fun s => ∃ x r1, s = Segment.wildcard x :: r1) (Node.mk hs st wc ca)
      (tok :: rest) m
      (match wc with
        | some (name, child) =>
          if tok = "" then SearchResult.notFound else (child.search rest m).bind name tok
        | none => SearchResult.notFound) := by
  cases wc with
  | none => exact wildcard_none_spec (Or.inl rfl)
  | some p =>
    obtain ⟨x0, child⟩ := p
    by_cases htok : tok = ""
    · simp only [htok, if_true]
      exact wildcard_none_spec (Or.inr rfl)
    · simp only [htok, if_false]
      exact wildcard_spec htok (ih child)

theorem catchAll_branch (hs : List (String × H)) (st : List (String × Node H))
    (wc : Option (String × Node H)) (ca : Option (String × List (String × H)))
    (tok : String) (rest : List String) (m : String) :
    SearchSpec (fun s => ∃ x r1, s = Segment.catchAll x :: r1) (Node.mk hs st wc ca)
      (tok :: rest) m
      (match ca with
        | some (name, tbl) =>
          if tok = "" then SearchResult.notFound
          else atTerminal tbl m [(name, joinTokens (tok :: rest))]
            (some (joinTokens (tok :: rest)))
        | none => SearchResult.notFound) := by
  cases ca with
  | none => exact catchAll_none_spec (Or.inl rfl)
  | some p =>
    obtain ⟨x0, tbl⟩ := p
    by_cases htok : tok = ""
    · simp only [htok, if_true]
      exact catchAll_none_spec (Or.inr rfl)
    · simp only [htok, if_false]
      exact catchAll_spec htok

theorem search_spec : ∀ (toks : List String) (n : Node H) (m : String),
    SearchSpec (fun _ => True) n toks m (n.search toks m) := by
  intro toks
  induction toks with
  | nil =>
    intro n m
    obtain ⟨hs, st, wc, ca⟩ := n
    have hnil : ∀ segs, (matchSegments segs []).isSome = true → segs = [] := by
      intro segs hm
      cases segs with
      | nil => rfl
      | cons s r => rw [matchSegments_cons_nil] at hm; cases hm
    simp only [Node.search]
    rcases atTerminal_cases hs m [] none with ⟨h, hl, he⟩ | ⟨hl, hnil0, he⟩ | ⟨hl, hne, he⟩
    · rw [he]
      refine ⟨[], trivial, hl, rfl, ?_⟩
      intro segs1 h1 _ _ hm1
      rw [hnil segs1 hm1]; rfl
    · rw [he]
      rintro segs1 - ⟨m1, h1, hh1⟩
      by_cases hm1 : (matchSegments segs1 []).isSome = true
      · rw [hnil segs1 hm1, handlerOf_nil, hnil0] at hh1
        cases hh1
      · exact eq_none_of_not_isSome hm1
    · rw [he]
      refine ⟨⟨[], trivial, rfl, hne, rfl, ?_⟩, ?_⟩
      · intro segs1 _ _ hm1
        rw [hnil segs1 hm1]; rfl
      · intro segs1 h1 _ hh1
        by_cases hm1 : (matchSegments segs1 []).isSome = true
        · rw [hnil segs1 hm1, handlerOf_nil, hl] at hh1
          cases hh1
        · exact eq_none_of_not_isSome hm1
  | cons tok rest ih =>
    intro n m
    obtain ⟨hs, st, wc, ca⟩ := n
    rw [search_cons]
    have hWC := orElse_spec (wildcard_branch hs st wc ca tok rest m (fun c => ih c m))
      (catchAll_branch hs st wc ca tok rest m) (by
        rintro s s1 ⟨x, r1, rfl⟩ ⟨y, r2, rfl⟩
        simp [prefers, Segment.rank])
    have hall := orElse_spec (static_branch hs st wc ca tok rest m (fun c => ih c m)) hWC (by
      rintro s s1 ⟨t, r1, rfl⟩ (⟨y, r2, rfl⟩ | ⟨y, r2, rfl⟩) <;> simp [prefers, Segment.rank])
    refine spec_of_cover hall ?_
    intro segs hm
    cases segs with
    | nil => rw [matchSegments_nil_cons] at hm; cases hm
    | cons s r =>
      cases s with
      | static t => exact Or.inl ⟨t, r, rfl⟩
      | wildcard x => exact Or.inr (Or.inl ⟨x, r, rfl⟩)
      | catchAll x => exact Or.inr (Or.inr ⟨x, r, rfl⟩)

theorem tableAt_isSome_of_handlerOf {n : Node H} {segs : List Segment} {m : String} {h : H}
    (hh : n.handlerOf segs m = some h) : ∃ tbl, n.tableAt segs = some tbl ∧ tbl.lookup m = some h := by
  unfold Node.handlerOf at hh
  cases ht : n.tableAt segs with
  | none => rw [ht] at hh; cases hh
  | some tbl => rw [ht] at hh; exact ⟨tbl, rfl, hh⟩

theorem pattern_unique : ∀ (toks : List String) (n : Node H) (a b : List Segment),
    (n.tableAt a).isSome = true → (n.tableAt b).isSome = true →
    (matchSegments a toks).isSome = true → (matchSegments b toks).isSome = true →
    prefers a b = true → prefers b a = true → a = b := by
  intro toks
  induction toks with
  | nil =>
    intro n a b _ _ hma hmb _ _
    cases a with
    | cons s r => rw [matchSegments_cons_nil] at hma; cases hma
    | nil =>
      cases b with
      | cons s r => rw [matchSegments_cons_nil] at hmb; cases hmb
      | nil => rfl
  | cons tok rest ih =>
    intro n a b hta htb hma hmb hab hba
    obtain ⟨hs, st, wc, ca⟩ := n
    cases a with
    | nil => rw [matchSegments_nil_cons] at hma; cases hma
    | cons sa ra =>
      cases b with
      | nil => rw [matchSegments_nil_cons] at hmb; cases hmb
      | cons sb rb =>
        cases sa with
        | static ta =>
          cases sb with
          | static tb =>
            rw [matchSegments_static_cons] at hma hmb
            split at hma
            · split at hmb
              · subst_vars
                rw [tableAt_static] at hta htb
                rw [prefers_cons_same] at hab hba
                cases hl : st.lookup tb with
                | none => rw [hl] at hta; cases hta
                | some c =>
                  rw [hl] at hta htb
                  rw [ih c ra rb hta htb hma hmb hab hba]
              · cases hmb
            · cases hma
          | wildcard xb => simp [prefers, Segment.rank] at hba
          | catchAll xb => simp [prefers, Segment.rank] at hba
        | wildcard xa =>
          cases sb with
          | static tb => simp [prefers, Segment.rank] at hab
          | wildcard xb =>
            rw [tableAt_wildcard] at hta htb
            cases wc with
            | none => cases hta
            | some p =>
              obtain ⟨x0, c⟩ := p
              simp only at hta htb
              split at hta
              · split at htb
                · subst_vars
                  rw [prefers_cons_same] at hab hba
                  rw [matchSegments_wildcard_cons] at hma hmb
                  by_cases htok : tok = ""
                  · rw [if_pos htok] at hma; cases hma
                  · rw [if_neg htok] at hma hmb
                    have hma1 : (matchSegments ra rest).isSome = true := by
                      cases hr : matchSegments ra rest with
                      | none => rw [hr] at hma; cases hma
                      | some p => rfl
                    have hmb1 : (matchSegments rb rest).isSome = true := by
                      cases hr : matchSegments rb rest with
                      | none => rw [hr] at hmb; cases hmb
                      | some p => rfl
                    rw [ih c ra rb hta htb hma1 hmb1 hab hba]
                · cases htb
              · cases hta
          | catchAll xb => simp [prefers, Segment.rank] at hba
        | catchAll xa =>
          cases sb with
          | static tb => simp [prefers, Segment.rank] at hab
          | wildcard xb => simp [prefers, Segment.rank] at hab
          | catchAll xb =>
            rw [matchSegments_catchAll_cons] at hma hmb
            split at hma
            · split at hmb
              · subst_vars
                rw [tableAt_catchAll] at hta htb
                cases ca with
                | none => cases hta
                | some p =>
                  obtain ⟨x0, tbl⟩ := p
                  simp only at hta htb
                  split at hta
                  · split at htb
                    · subst_vars
                      rfl
                    · cases htb
                  · cases hta
              · cases hmb
            · cases hma

theorem bindParams_eq (ctx : Context) (ps : List (String × String)) :
    bindParams ctx ps = .ok (ctx.withParams ps) := by
  induction ps generalizing ctx with
  | nil => rfl
  | cons p rest ih =>
    obtain ⟨x, v⟩ := p
    simp only [bindParams, setParam_wayContextKey, Context.withParams]
    exact ih _

theorem setDefaultRequestContext_eq (t : TreeMux H) (r : Request) :
    t.setDefaultRequestContext r =
      .ok (match t.DefaultContext with
        | some d => { r with ctx := some d }
        | none => r) := by
  unfold TreeMux.setDefaultRequestContext
  cases hd : t.DefaultContext with
  | none => simp
  | some d => simp [Request.WithContext]

theorem invoke_eq (t : TreeMux H) (r : Request) (h : H) (ps : List (String × String))
    (ca : Option String) :
    t.invoke r h ps ca = .ok (Response.invoke h { r with ctx := some (t.handlerContext r ps ca) }) := by
  unfold TreeMux.invoke TreeMux.handlerContext
  rw [setDefaultRequestContext_eq]
  cases hd : t.DefaultContext with
  | none =>
    simp only [bindParams_eq]
    cases ca with
    | none => simp [Request.WithContext, Context.withCatchAll]
    | some v => simp [Request.WithContext, Context.withCatchAll, setParam_wayCatchAllKey]
  | some d =>
    simp only [bindParams_eq, Request.Context]
    cases ca with
    | none => simp [Request.WithContext, Context.withCatchAll]
    | some v => simp [Request.WithContext, Context.withCatchAll, setParam_wayCatchAllKey]

theorem registered_iff {t0 t : TreeMux H} {routes : List (Route H)}
    (hroot : t0.root = Node.empty) (hall : t0.HandleAll routes = .ok t)
    (segs : List Segment) (m : String) (h : H) :
    t.root.handlerOf segs m = some h ↔
      ∃ rt ∈ routes, rt.method = m ∧ parsePattern rt.pattern = .ok segs ∧ rt.handler = h := by
  rw [(HandleAll_spec routes t0 t hall).2 segs m h, hroot, handlerOf_empty]
  simp

theorem patternMatches_iff (pattern path : String) :
    patternMatches pattern path = true ↔
      ∃ segs, parsePattern pattern = .ok segs ∧
        (matchSegments segs (pathTokens path)).isSome = true := by
  unfold patternMatches
  cases hp : parsePattern pattern with
  | error e => simp
  | ok segs => simp

/-- No registered pattern matches the path. -/
theorem search_notFound_iff {t0 t : TreeMux H} {routes : List (Route H)}
    (hroot : t0.root = Node.empty) (hall : t0.HandleAll routes = .ok t) (path m : String) :
    (t.root.search (pathTokens path) m).isNotFound = true ↔
      ∀ rt ∈ routes, patternMatches rt.pattern path = false := by
  have hspec := search_spec (pathTokens path) t.root m
  constructor
  · intro hnf rt hmem
    cases hres : t.root.search (pathTokens path) m with
    | matched h ps c => rw [hres] at hnf; cases hnf
    | methodNotAllowed tbl ps c al => rw [hres] at hnf; cases hnf
    | notFound =>
      rw [hres] at hspec
      cases hpm : patternMatches rt.pattern path with
      | false => rfl
      | true =>
        obtain ⟨segs, hparse, hm⟩ := (patternMatches_iff _ _).1 hpm
        have := hspec segs trivial
          ⟨rt.method, rt.handler, (registered_iff hroot hall _ _ _).2 ⟨rt, hmem, rfl, hparse, rfl⟩⟩
        rw [this] at hm; cases hm
  · intro hno
    have hcontra : ∀ segs m1 h1, t.root.handlerOf segs m1 = some h1 →
        (matchSegments segs (pathTokens path)).isSome = true → False := by
      intro segs m1 h1 hh hm
      obtain ⟨rt, hmem, -, hparse, -⟩ := (registered_iff hroot hall _ _ _).1 hh
      have := hno rt hmem
      rw [(patternMatches_iff _ _).2 ⟨segs, hparse, hm⟩] at this
      cases this
    cases hres : t.root.search (pathTokens path) m with
    | matched h ps c =>
      rw [hres] at hspec
      obtain ⟨segs, -, hh, hm, -⟩ := hspec
      exact (hcontra segs m h hh (isSome_of_eq_some hm)).elim
    | methodNotAllowed tbl ps c al =>
      rw [hres] at hspec
      obtain ⟨⟨segs, -, ht, hne, hm, -⟩, -⟩ := hspec
      obtain ⟨m1, h1, hl⟩ := lookup_of_ne_nil hne
      have hh : t.root.handlerOf segs m1 = some h1 := by
        unfold Node.handlerOf; rw [ht]; exact hl
      exact (hcontra segs m1 h1 hh (isSome_of_eq_some hm)).elim
    | notFound => rfl

/-- Some registered pattern with a handler for the method matches the path
exactly when the search finds a handler. -/
theorem search_matched_of_route {t0 t : TreeMux H} {routes : List (Route H)}
    (hroot : t0.root = Node.empty) (hall : t0.HandleAll routes = .ok t) (path m : String)
    (hex : ∃ rt ∈ routes, rt.method = m ∧ patternMatches rt.pattern path = true) :
    ∃ h ps c, t.root.search (pathTokens path) m = SearchResult.matched h ps c := by
  obtain ⟨rt, hmem, hmeth, hpm⟩ := hex
  obtain ⟨segs, hparse, hm⟩ := (patternMatches_iff _ _).1 hpm
  have hreg : t.root.handlerOf segs m = some rt.handler :=
    (registered_iff hroot hall _ _ _).2 ⟨rt, hmem, hmeth, hparse, rfl⟩
  have hspec := search_spec (pathTokens path) t.root m
  cases hres : t.root.search (pathTokens path) m with
  | matched h ps c => exact ⟨h, ps, c, rfl⟩
  | methodNotAllowed tbl ps c al =>
    rw [hres] at hspec
    have := hspec.2 segs rt.handler trivial hreg
    rw [this] at hm; cases hm
  | notFound =>
    rw [hres] at hspec
    have := hspec segs trivial ⟨m, rt.handler, hreg⟩
    rw [this] at hm; cases hm

theorem search_matched_route {t0 t : TreeMux H} {routes : List (Route H)}
    (hroot : t0.root = Node.empty) (hall : t0.HandleAll routes = .ok t) (path m : String)
    {h : H} {ps : List (String × String)} {c : Option String}
    (hres : t.root.search (pathTokens path) m = SearchResult.matched h ps c) :
    ∃ rt ∈ routes, rt.method = m ∧ rt.handler = h ∧ ∃ segs, parsePattern rt.pattern = .ok segs ∧
      matchSegments segs (pathTokens path) = some (ps, c) ∧
      ∀ rt1 ∈ routes, rt1.method = m → ∀ segs1, parsePattern rt1.pattern = .ok segs1 →
        (matchSegments segs1 (pathTokens path)).isSome = true → prefers segs segs1 = true := by
  have hspec := search_spec (pathTokens path) t.root m
  rw [hres] at hspec
  obtain ⟨segs, -, hh, hm, hmin⟩ := hspec
  obtain ⟨rt, hmem, hmeth, hparse, hhand⟩ := (registered_iff hroot hall _ _ _).1 hh
  refine ⟨rt, hmem, hmeth, hhand, segs, hparse, hm, ?_⟩
  intro rt1 hmem1 hmeth1 segs1 hparse1 hm1
  exact hmin segs1 rt1.handler trivial
    ((registered_iff hroot hall _ _ _).2 ⟨rt1, hmem1, hmeth1, hparse1, rfl⟩) hm1

theorem lookup_matched (t : TreeMux H) (path m : String) {h : H} {ps : List (String × String)}
    {c : Option String} (hres : t.root.search (pathTokens path) m = SearchResult.matched h ps c) :
    t.lookup path m = SearchResult.matched h ps c := by
  unfold TreeMux.lookup
  rw [hres]

theorem lookup_isNotFound (t : TreeMux H) (path m : String) :
    (t.lookup path m).isNotFound = (t.root.search (pathTokens path) m).isNotFound := by
  unfold TreeMux.lookup
  cases hres : t.root.search (pathTokens path) m with
  | matched h ps c => rfl
  | notFound => rfl
  | methodNotAllowed tbl ps c al =>
    simp only
    split
    · split <;> rfl
    · rfl

theorem matchSegments_bindings : ∀ (segs : List Segment) (toks : List String)
    (ps : List (String × String)) (c : Option String),
    matchSegments segs toks = some (ps, c) →
    (∀ (i : Nat) (x : String), segs[i]? = some (Segment.wildcard x) →
      ∃ tok, toks[i]? = some tok ∧ (x, tok) ∈ ps) ∧
    (∀ (i : Nat) (x : String), segs[i]? = some (Segment.catchAll x) →
      (x, joinTokens (toks.drop i)) ∈ ps ∧ c = some (joinTokens (toks.drop i))) := by
  intro segs
  induction segs with
  | nil =>
    intro toks ps c _
    constructor <;> intro i x hi <;> simp at hi
  | cons s rest ih =>
    intro toks ps c hm
    cases toks with
    | nil => rw [matchSegments_cons_nil] at hm; cases hm
    | cons tok trest =>
      cases s with
      | static t =>
        rw [matchSegments_static_cons] at hm
        split at hm
        · obtain ⟨h1, h2⟩ := ih trest ps c hm
          constructor
          · intro i x hi
            cases i with
            | zero => simp at hi
            | succ j => simpa using h1 j x (by simpa using hi)
          · intro i x hi
            cases i with
            | zero => simp at hi
            | succ j => simpa using h2 j x (by simpa using hi)
        · cases hm
      | wildcard y =>
        rw [matchSegments_wildcard_cons] at hm
        split at hm
        · cases hm
        · cases hr : matchSegments rest trest with
          | none => rw [hr] at hm; cases hm
          | some p =>
            obtain ⟨ps1, c1⟩ := p
            rw [hr] at hm
            simp only [Option.some.injEq, Prod.mk.injEq] at hm
            obtain ⟨rfl, rfl⟩ := hm
            obtain ⟨h1, h2⟩ := ih trest ps1 c1 hr
            constructor
            · intro i x hi
              cases i with
              | zero =>
                simp only [List.getElem?_cons_zero, Option.some.injEq, Segment.wildcard.injEq] at hi
                subst hi
                exact ⟨tok, by simp, List.mem_cons_self _ _⟩
              | succ j =>
                obtain ⟨tk, htk, hmem⟩ := h1 j x (by simpa using hi)
                exact ⟨tk, by simpa using htk, List.mem_cons_of_mem _ hmem⟩
            · intro i x hi
              cases i with
              | zero => simp at hi
              | succ j =>
                obtain ⟨hmem, hc⟩ := h2 j x (by simpa using hi)
                exact ⟨List.mem_cons_of_mem _ (by simpa using hmem), by simpa using hc⟩
      | catchAll y =>
        rw [matchSegments_catchAll_cons] at hm
        split at hm
        · rename_i hnil
          subst hnil
          split at hm
          · cases hm
          · simp only [Option.some.injEq, Prod.mk.injEq] at hm
            obtain ⟨rfl, rfl⟩ := hm
            constructor
            · intro i x hi
              cases i with
              | zero => simp at hi
              | succ j => simp at hi
            · intro i x hi
              cases i with
              | zero =>
                simp only [List.getElem?_cons_zero, Option.some.injEq, Segment.catchAll.injEq] at hi
                subst hi
                simp
              | succ j => simp at hi
        · cases hm

theorem value_withParams_of_not_mem (key : GoVal) : ∀ (ps : List (String × String)) (ctx : Context),
    (∀ p ∈ ps, GoVal.wayContextKey p.1 ≠ key) →
    (ctx.withParams ps).Value key = ctx.Value key := by
  intro ps
  induction ps with
  | nil => intro ctx _; rfl
  | cons p rest ih =>
    intro ctx hne
    obtain ⟨x, v⟩ := p
    simp only [Context.withParams]
    rw [ih _ (fun q hq => hne q (List.mem_cons_of_mem _ hq))]
    have := hne (x, v) (List.mem_cons_self _ _)
    simp only [Context.Value, if_neg this]

theorem value_withParams_of_mem : ∀ (ps : List (String × String)) (ctx : Context) (x v : String),
    (ps.map Prod.fst).Nodup → (x, v) ∈ ps →
    (ctx.withParams ps).Value (GoVal.wayContextKey x) = GoVal.string v := by
  intro ps
  induction ps with
  | nil => intro ctx x v _ hmem; cases hmem
  | cons p rest ih =>
    intro ctx x v hnd hmem
    obtain ⟨x1, v1⟩ := p
    simp only [List.map_cons, List.nodup_cons] at hnd
    simp only [Context.withParams]
    rcases List.mem_cons.1 hmem with heq | hmem1
    · injection heq with hx hv
      subst hx; subst hv
      rw [value_withParams_of_not_mem]
      · simp [Context.Value]
      · intro q hq hc
        injection hc with hc1
        exact hnd.1 (hc1 ▸ List.mem_map_of_mem Prod.fst hq)
    · exact ih _ x v hnd.2 hmem1

theorem param_handlerContext (t : TreeMux H) (r : Request) (ps : List (String × String))
    (c : Option String) (x v : String) (hnd : (ps.map Prod.fst).Nodup) (hmem : (x, v) ∈ ps) :
    Param (some (t.handlerContext r ps c)) x = .ok v := by
  have hv : (t.handlerContext r ps c).Value (GoVal.wayContextKey x) = GoVal.string v := by
    unfold TreeMux.handlerContext
    cases c with
    | none => exact value_withParams_of_mem ps _ x v hnd hmem
    | some w =>
      simp only [Context.withCatchAll, Context.Value, wayCatchAllKey]
      rw [if_neg (by simp)]
      exact value_withParams_of_mem ps _ x v hnd hmem
  simp [Param, getParam, ctxValue, hv]

theorem catchAll_handlerContext (t : TreeMux H) (r : Request) (ps : List (String × String))
    (v : String) : CatchAll (some (t.handlerContext r ps (some v))) = .ok v := by
  simp [CatchAll, getParam, ctxValue, TreeMux.handlerContext, Context.withCatchAll, Context.Value]

/-! ## Theorems: dispatch -/

/-- C1: fallthrough.  For every list of routes registered on an empty tree
and every request, if some registered pattern matches the request path and has
a handler for the request method, then the dispatch invokes the handler of a
registered route for that method whose pattern matches the path, whatever more
specific patterns match the path with handlers for other methods only. -/
theorem fallthrough_finds_method_handler (clean : String → String) (t0 t : TreeMux H)
    (routes : List (Route H)) (r : Request)
    (hroot : t0.root = Node.empty) (hall : t0.HandleAll routes = .ok t)
    (hex : ∃ rt ∈ routes, rt.method = r.Method ∧ patternMatches rt.pattern r.Path = true) :
    ∃ rt ∈ routes, rt.method = r.Method ∧ patternMatches rt.pattern r.Path = true ∧
      ∃ r1, t.ServeHTTP clean r = .ok (Response.invoke rt.handler r1) := by
  obtain ⟨h, ps, c, hres⟩ := search_matched_of_route hroot hall r.Path r.Method hex
  obtain ⟨rt, hmem, hmeth, hhand, segs, hparse, hm, -⟩ :=
    search_matched_route hroot hall r.Path r.Method hres
  refine ⟨rt, hmem, hmeth, (patternMatches_iff _ _).2 ⟨segs, hparse, isSome_of_eq_some hm⟩, ?_⟩
  refine ⟨{ r with ctx := some (t.handlerContext r ps c) }, ?_⟩
  unfold TreeMux.ServeHTTP
  rw [lookup_matched t r.Path r.Method hres, hhand]
  exact invoke_eq t r h ps c

/-- Witness of C1: with the seven routes of `TestMethodNotAllowedFallthrough`,
where POST `/apple/ban/def` and OPTIONS `/apple/*path` are registered, OPTIONS
`/apple/ban/def` invokes the handler of `/apple/*path` with `path` bound to
`ban/def`. -/
theorem fallthrough_finds_method_handler_witness :
    (New : TreeMux String).HandleAll fallthroughRoutes = .ok fallthroughMux ∧
    (∃ r1, fallthroughMux.ServeHTTP cleanPath (NewRequest "OPTIONS" "/apple/ban/def")
        = .ok (Response.invoke "OPTIONS /apple/*path" r1) ∧
      Param (some r1.Context) "path" = .ok "ban/def") ∧
    (∃ rt ∈ fallthroughRoutes, rt.method = "OPTIONS" ∧
      patternMatches rt.pattern "/apple/ban/def" = true ∧
      ∃ r1, fallthroughMux.ServeHTTP cleanPath (NewRequest "OPTIONS" "/apple/ban/def")
        = .ok (Response.invoke rt.handler r1)) :=
  ⟨rfl, ⟨_, rfl, rfl⟩,
    fallthrough_finds_method_handler cleanPath New fallthroughMux fallthroughRoutes
      (NewRequest "OPTIONS" "/apple/ban/def") rfl rfl
      ⟨⟨"OPTIONS", "/apple/*path", "OPTIONS /apple/*path"⟩, by simp [fallthroughRoutes], rfl, rfl⟩⟩

/-- C2: precedence.  For every request whose path is matched by registered
patterns with a handler for its method, the handler invoked belongs to a
registered route for the method whose pattern matches the path and is
preferred, position by position, static over wildcard over catch-all, to every
registered pattern for the method that matches the path; every route so
preferred has that same handler.  Each wildcard of the pattern is bound to the
one segment at its position and the catch-all to all the segments from its
position on, joined with slashes; the context handed to the handler returns
the bindings to `Param` (names being distinct) and the catch-all value to
`CatchAll`. -/
theorem precedence_static_wildcard_catchAll (clean : String → String) (t0 t : TreeMux H)
    (routes : List (Route H)) (r : Request)
    (hroot : t0.root = Node.empty) (hall : t0.HandleAll routes = .ok t)
    (hex : ∃ rt ∈ routes, rt.method = r.Method ∧ patternMatches rt.pattern r.Path = true) :
    ∃ rt ∈ routes, ∃ segs ps ca,
      rt.method = r.Method ∧ parsePattern rt.pattern = .ok segs ∧
      matchSegments segs (pathTokens r.Path) = some (ps, ca) ∧
      (∀ rt1 ∈ routes, rt1.method = r.Method → ∀ segs1, parsePattern rt1.pattern = .ok segs1 →
        (matchSegments segs1 (pathTokens r.Path)).isSome = true → prefers segs segs1 = true) ∧
      t.ServeHTTP clean r
        = .ok (Response.invoke rt.handler { r with ctx := some (t.handlerContext r ps ca) }) ∧
      (∀ (i : Nat) (x : String), segs[i]? = some (Segment.wildcard x) →
        ∃ tok, (pathTokens r.Path)[i]? = some tok ∧ (x, tok) ∈ ps) ∧
      (∀ (i : Nat) (x : String), segs[i]? = some (Segment.catchAll x) →
        (x, joinTokens ((pathTokens r.Path).drop i)) ∈ ps ∧
        ca = some (joinTokens ((pathTokens r.Path).drop i))) ∧
      ((ps.map Prod.fst).Nodup → ∀ x v, (x, v) ∈ ps →
        Param (some (t.handlerContext r ps ca)) x = .ok v) ∧
      (∀ v, ca = some v → CatchAll (some (t.handlerContext r ps ca)) = .ok v) ∧
      (∀ rt2 ∈ routes, rt2.method = r.Method → ∀ segs2, parsePattern rt2.pattern = .ok segs2 →
        (matchSegments segs2 (pathTokens r.Path)).isSome = true →
        (∀ rt1 ∈ routes, rt1.method = r.Method → ∀ segs1, parsePattern rt1.pattern = .ok segs1 →
          (matchSegments segs1 (pathTokens r.Path)).isSome = true → prefers segs2 segs1 = true) →
        rt2.handler = rt.handler) := by
  obtain ⟨h, ps, c, hres⟩ := search_matched_of_route hroot hall r.Path r.Method hex
  obtain ⟨rt, hmem, hmeth, hhand, segs, hparse, hm, hmin⟩ :=
    search_matched_route hroot hall r.Path r.Method hres
  obtain ⟨hw, hc⟩ := matchSegments_bindings segs (pathTokens r.Path) ps c hm
  refine ⟨rt, hmem, segs, ps, c, hmeth, hparse, hm, hmin, ?_, hw, hc, ?_, ?_, ?_⟩
  · unfold TreeMux.ServeHTTP
    rw [lookup_matched t r.Path r.Method hres, hhand]
    exact invoke_eq t r h ps c
  · intro hnd x v hxv
    exact param_handlerContext t r ps c x v hnd hxv
  · intro v hv
    subst hv
    exact catchAll_handlerContext t r ps v
  · intro rt2 hmem2 hmeth2 segs2 hparse2 hm2 hmin2
    have hreg : t.root.handlerOf segs r.Method = some rt.handler :=
      (registered_iff hroot hall _ _ _).2 ⟨rt, hmem, hmeth, hparse, rfl⟩
    have hreg2 : t.root.handlerOf segs2 r.Method = some rt2.handler :=
      (registered_iff hroot hall _ _ _).2 ⟨rt2, hmem2, hmeth2, hparse2, rfl⟩
    obtain ⟨tbl, ht, -⟩ := tableAt_isSome_of_handlerOf hreg
    obtain ⟨tbl2, ht2, -⟩ := tableAt_isSome_of_handlerOf hreg2
    have heq : segs2 = segs :=
      pattern_unique (pathTokens r.Path) t.root segs2 segs (isSome_of_eq_some ht2)
        (isSome_of_eq_some ht) hm2 (isSome_of_eq_some hm)
        (hmin2 rt hmem hmeth segs hparse (isSome_of_eq_some hm))
        (hmin rt2 hmem2 hmeth2 segs2 hparse2 hm2)
    rw [heq, hreg] at hreg2
    injection hreg2 with e
    exact e.symm

/-- Witness of C2: with DELETE `/apple/:seed` and DELETE `/apple/*path`
registered, DELETE `/apple/banana` invokes `/apple/:seed` with `seed` bound to
`banana`, and DELETE `/apple/banana/cat` invokes `/apple/*path` with `path`
bound to `banana/cat`. -/
theorem precedence_static_wildcard_catchAll_witness :
    (New : TreeMux String).HandleAll fallthroughRoutes = .ok fallthroughMux ∧
    (∃ r1, fallthroughMux.ServeHTTP cleanPath (NewRequest "DELETE" "/apple/banana")
        = .ok (Response.invoke "DELETE /apple/:seed" r1) ∧
      Param (some r1.Context) "seed" = .ok "banana") ∧
    (∃ r1, fallthroughMux.ServeHTTP cleanPath (NewRequest "DELETE" "/apple/banana/cat")
        = .ok (Response.invoke "DELETE /apple/*path" r1) ∧
      Param (some r1.Context) "path" = .ok "banana/cat") ∧
    (∃ rt ∈ fallthroughRoutes, ∃ segs ps ca,
      rt.method = "DELETE" ∧ parsePattern rt.pattern = .ok segs ∧
      matchSegments segs (pathTokens "/apple/banana") = some (ps, ca) ∧
      fallthroughMux.ServeHTTP cleanPath (NewRequest "DELETE" "/apple/banana")
        = .ok (Response.invoke rt.handler
            { NewRequest "DELETE" "/apple/banana" with
              ctx := some (fallthroughMux.handlerContext (NewRequest "DELETE" "/apple/banana") ps ca) })) := by
  refine ⟨rfl, ⟨_, rfl, rfl⟩, ⟨_, rfl, rfl⟩, ?_⟩
  obtain ⟨rt, hmem, segs, ps, ca, h1, h2, h3, -, h5, -⟩ :=
    precedence_static_wildcard_catchAll cleanPath New fallthroughMux fallthroughRoutes
      (NewRequest "DELETE" "/apple/banana") rfl rfl
      ⟨⟨"DELETE", "/apple/:seed", "DELETE /apple/:seed"⟩, by simp [fallthroughRoutes], rfl, rfl⟩
  exact ⟨rt, hmem, segs, ps, ca, h1, h2, h3, h5⟩

theorem lookup_of_not_head (t : TreeMux H) (path m : String) (hm : m ≠ "HEAD") :
    t.lookup path m = t.root.search (pathTokens path) m := by
  unfold TreeMux.lookup
  cases t.root.search (pathTokens path) m with
  | matched h ps c => rfl
  | notFound => rfl
  | methodNotAllowed tbl ps c al => simp [hm]

theorem lookup_found_iff {t0 t : TreeMux H} {routes : List (Route H)}
    (hroot : t0.root = Node.empty) (hall : t0.HandleAll routes = .ok t) (path m : String) :
    (t.lookup path m).isNotFound = false ↔
      ∃ rt ∈ routes, patternMatches rt.pattern path = true := by
  rw [lookup_isNotFound]
  constructor
  · intro hnf
    by_contra hcon
    have : (t.root.search (pathTokens path) m).isNotFound = true := by
      rw [search_notFound_iff hroot hall]
      intro rt hmem
      cases hpm : patternMatches rt.pattern path with
      | false => rfl
      | true => exact (hcon ⟨rt, hmem, hpm⟩).elim
    rw [this] at hnf
    cases hnf
  · rintro ⟨rt, hmem, hpm⟩
    cases hnf : (t.root.search (pathTokens path) m).isNotFound with
    | false => rfl
    | true =>
      have := (search_notFound_iff hroot hall path m).1 hnf rt hmem
      rw [this] at hpm
      cases hpm

theorem resolveRedirect_notFound_iff {t0 t : TreeMux H} {routes : List (Route H)}
    (hroot : t0.root = Node.empty) (hall : t0.HandleAll routes = .ok t)
    (clean : String → String) (r : Request) :
    t.resolveRedirect clean r = Response.notFound ↔
      (t.RedirectTrailingSlash = true →
        ∀ rt ∈ routes, patternMatches rt.pattern (toggleTrailingSlash r.Path) = false) ∧
      (t.RedirectCleanPath = true →
        ∀ rt ∈ routes, patternMatches rt.pattern (clean r.Path) = false) := by
  have hnone : ∀ path, (¬ ∃ rt ∈ routes, patternMatches rt.pattern path = true) ↔
      ∀ rt ∈ routes, patternMatches rt.pattern path = false := by
    intro path
    constructor
    · intro hno rt hmem
      cases hpm : patternMatches rt.pattern path with
      | false => rfl
      | true => exact (hno ⟨rt, hmem, hpm⟩).elim
    · rintro hall1 ⟨rt, hmem, hpm⟩
      rw [hall1 rt hmem] at hpm
      cases hpm
  have hf1 := lookup_found_iff hroot hall (toggleTrailingSlash r.Path) r.Method
  have hf2 := lookup_found_iff hroot hall (clean r.Path) r.Method
  unfold TreeMux.resolveRedirect
  split
  · rename_i h1
    simp only [reduceCtorEq, false_iff]
    intro hcon
    exact (hnone _).2 (hcon.1 h1.1) (hf1.1 h1.2)
  · rename_i h1
    split
    · rename_i h2
      simp only [reduceCtorEq, false_iff]
      intro hcon
      exact (hnone _).2 (hcon.2 h2.1) (hf2.1 h2.2)
    · rename_i h2
      simp only [true_iff]
      exact ⟨fun hf => (hnone _).1 (fun hex => h1 ⟨hf, hf1.2 hex⟩),
        fun hf => (hnone _).1 (fun hex => h2 ⟨hf, hf2.2 hex⟩)⟩

theorem resolveRedirect_ne_methodNotAllowed (clean : String → String) (t : TreeMux H)
    (r : Request) (al : List String) : t.resolveRedirect clean r ≠ Response.methodNotAllowed al := by
  unfold TreeMux.resolveRedirect
  split
  · simp
  · split <;> simp

/-- C3: disposition 405 versus 404.  For every request whose method is not
HEAD, on a router with no `OptionsHandler`, the dispatch answers 405 exactly
when some registered pattern matches the path and no registered pattern
matching the path has a handler for the method; it answers 404 when no
registered pattern matches the path, its trailing-slash variant or its cleaned
variant; and it answers 404 exactly when no registered pattern matches the
path nor a variant whose redirect switch is on. -/
theorem methodNotAllowed_versus_notFound (clean : String → String) (t0 t : TreeMux H)
    (routes : List (Route H)) (r : Request)
    (hroot : t0.root = Node.empty) (hall : t0.HandleAll routes = .ok t)
    (hopt : t.OptionsHandler = none) (hhead : r.Method ≠ "HEAD") :
    ((∃ allowed, t.ServeHTTP clean r = .ok (Response.methodNotAllowed allowed)) ↔
      ((∃ rt ∈ routes, patternMatches rt.pattern r.Path = true) ∧
        ∀ rt ∈ routes, patternMatches rt.pattern r.Path = true → rt.method ≠ r.Method)) ∧
    ((∀ rt ∈ routes, patternMatches rt.pattern r.Path = false ∧
        patternMatches rt.pattern (toggleTrailingSlash r.Path) = false ∧
        patternMatches rt.pattern (clean r.Path) = false) →
      t.ServeHTTP clean r = .ok Response.notFound) ∧
    (t.ServeHTTP clean r = .ok Response.notFound ↔
      (∀ rt ∈ routes, patternMatches rt.pattern r.Path = false) ∧
      (t.RedirectTrailingSlash = true →
        ∀ rt ∈ routes, patternMatches rt.pattern (toggleTrailingSlash r.Path) = false) ∧
      (t.RedirectCleanPath = true →
        ∀ rt ∈ routes, patternMatches rt.pattern (clean r.Path) = false)) := by
  have hnf := search_notFound_iff hroot hall r.Path r.Method
  have hserve : t.ServeHTTP clean r =
      match t.root.search (pathTokens r.Path) r.Method with
      | SearchResult.matched h ps c =>
        .ok (Response.invoke h { r with ctx := some (t.handlerContext r ps c) })
      | SearchResult.methodNotAllowed _ _ _ al => .ok (Response.methodNotAllowed al)
      | SearchResult.notFound => .ok (t.resolveRedirect clean r) := by
    unfold TreeMux.ServeHTTP
    rw [lookup_of_not_head t r.Path r.Method hhead]
    cases t.root.search (pathTokens r.Path) r.Method with
    | matched h ps c => exact invoke_eq t r h ps c
    | notFound => rfl
    | methodNotAllowed tbl ps c al => simp [hopt]
  have hiff404 : t.ServeHTTP clean r = .ok Response.notFound ↔
      (∀ rt ∈ routes, patternMatches rt.pattern r.Path = false) ∧
      (t.RedirectTrailingSlash = true →
        ∀ rt ∈ routes, patternMatches rt.pattern (toggleTrailingSlash r.Path) = false) ∧
      (t.RedirectCleanPath = true →
        ∀ rt ∈ routes, patternMatches rt.pattern (clean r.Path) = false) := by
    rw [hserve, ← hnf, ← resolveRedirect_notFound_iff hroot hall clean r]
    cases hres : t.root.search (pathTokens r.Path) r.Method with
    | matched h ps c => simp [SearchResult.isNotFound]
    | methodNotAllowed tbl ps c al => simp [SearchResult.isNotFound]
    | notFound => simp [SearchResult.isNotFound]
  refine ⟨?_, ?_, hiff404⟩
  · rw [hserve]
    cases hres : t.root.search (pathTokens r.Path) r.Method with
    | matched h ps c =>
      obtain ⟨rt, hmem, hmeth, -, segs, hparse, hm, -⟩ :=
        search_matched_route hroot hall r.Path r.Method hres
      simp only [Except.ok.injEq, reduceCtorEq, exists_false, false_iff, not_and]
      intro _ hno
      exact hno rt hmem ((patternMatches_iff _ _).2 ⟨segs, hparse, isSome_of_eq_some hm⟩) hmeth
    | methodNotAllowed tbl ps c al =>
      simp only [Except.ok.injEq, Response.methodNotAllowed.injEq, exists_eq', true_iff]
      constructor
      · by_contra hcon
        have : (t.root.search (pathTokens r.Path) r.Method).isNotFound = true := by
          rw [hnf]
          intro rt hmem
          cases hpm : patternMatches rt.pattern r.Path with
          | false => rfl
          | true => exact (hcon ⟨rt, hmem, hpm⟩).elim
        rw [hres] at this
        cases this
      · intro rt hmem hpm hmeth
        obtain ⟨h, ps1, c1, hres1⟩ :=
          search_matched_of_route hroot hall r.Path r.Method ⟨rt, hmem, hmeth, hpm⟩
        rw [hres] at hres1
        cases hres1
    | notFound =>
      have hno := hnf.1 (by rw [hres]; rfl)
      simp only [Except.ok.injEq]
      constructor
      · rintro ⟨al, hal⟩
        exact (resolveRedirect_ne_methodNotAllowed clean t r al hal).elim
      · rintro ⟨⟨rt, hmem, hpm⟩, -⟩
        rw [hno rt hmem] at hpm
        cases hpm
  · intro hno
    exact hiff404.2 ⟨fun rt hmem => (hno rt hmem).1, fun _ rt hmem => (hno rt hmem).2.1,
      fun _ rt hmem => (hno rt hmem).2.2⟩

/-- Witness of C3: with the seven routes of the test, GET `/apple/ban/def`,
PATCH `/apple/banana/cat` and PATCH `/apple/potato` give 405, GET `/abc` and
OPTIONS `/apple` give 404. -/
theorem methodNotAllowed_versus_notFound_witness :
    (New : TreeMux String).HandleAll fallthroughRoutes = .ok fallthroughMux ∧
    fallthroughMux.OptionsHandler = none ∧
    fallthroughMux.ServeHTTP cleanPath (NewRequest "GET" "/apple/ban/def")
      = .ok (Response.methodNotAllowed ["POST", "DELETE", "OPTIONS"]) ∧
    fallthroughMux.ServeHTTP cleanPath (NewRequest "PATCH" "/apple/banana/cat")
      = .ok (Response.methodNotAllowed ["GET", "POST", "DELETE", "OPTIONS"]) ∧
    fallthroughMux.ServeHTTP cleanPath (NewRequest "PATCH" "/apple/potato")
      = .ok (Response.methodNotAllowed ["GET", "DELETE", "OPTIONS"]) ∧
    fallthroughMux.ServeHTTP cleanPath (NewRequest "GET" "/abc") = .ok Response.notFound ∧
    fallthroughMux.ServeHTTP cleanPath (NewRequest "OPTIONS" "/apple") = .ok Response.notFound ∧
    ((∃ rt ∈ fallthroughRoutes, patternMatches rt.pattern "/apple/ban/def" = true) ∧
      ∀ rt ∈ fallthroughRoutes, patternMatches rt.pattern "/apple/ban/def" = true →
        rt.method ≠ "GET") :=
  ⟨rfl, rfl, rfl, rfl, rfl, rfl, rfl,
    (methodNotAllowed_versus_notFound cleanPath New fallthroughMux fallthroughRoutes
      (NewRequest "GET" "/apple/ban/def") rfl rfl rfl (by decide)).1.1 ⟨_, rfl⟩⟩

theorem search_preferred {t0 t : TreeMux H} {routes : List (Route H)}
    (hroot : t0.root = Node.empty) (hall : t0.HandleAll routes = .ok t) (path m : String)
    {rt : Route H} {segs : List Segment} (hmem : rt ∈ routes) (hmeth : rt.method = m)
    (hparse : parsePattern rt.pattern = .ok segs)
    (hm : (matchSegments segs (pathTokens path)).isSome = true)
    (hpref : ∀ rt1 ∈ routes, rt1.method = m → ∀ segs1, parsePattern rt1.pattern = .ok segs1 →
      (matchSegments segs1 (pathTokens path)).isSome = true → prefers segs segs1 = true) :
    ∃ ps c, t.root.search (pathTokens path) m = SearchResult.matched rt.handler ps c := by
  obtain ⟨h, ps, c, hres⟩ := search_matched_of_route hroot hall path m
    ⟨rt, hmem, hmeth, (patternMatches_iff _ _).2 ⟨segs, hparse, hm⟩⟩
  obtain ⟨rt0, hmem0, hmeth0, hhand0, segs0, hparse0, hm0, hmin0⟩ :=
    search_matched_route hroot hall path m hres
  have hreg : t.root.handlerOf segs m = some rt.handler :=
    (registered_iff hroot hall _ _ _).2 ⟨rt, hmem, hmeth, hparse, rfl⟩
  have hreg0 : t.root.handlerOf segs0 m = some h :=
    (registered_iff hroot hall _ _ _).2 ⟨rt0, hmem0, hmeth0, hparse0, hhand0⟩
  obtain ⟨tbl, ht, -⟩ := tableAt_isSome_of_handlerOf hreg
  obtain ⟨tbl0, ht0, -⟩ := tableAt_isSome_of_handlerOf hreg0
  have heq : segs = segs0 :=
    pattern_unique (pathTokens path) t.root segs segs0 (isSome_of_eq_some ht)
      (isSome_of_eq_some ht0) hm (isSome_of_eq_some hm0)
      (hpref rt0 hmem0 hmeth0 segs0 hparse0 (isSome_of_eq_some hm0))
      (hmin0 rt hmem hmeth segs hparse hm)
  rw [heq, hreg0] at hreg
  injection hreg with e
  exact ⟨ps, c, by rw [hres, e]⟩

theorem search_methodNotAllowed_of {t0 t : TreeMux H} {routes : List (Route H)}
    (hroot : t0.root = Node.empty) (hall : t0.HandleAll routes = .ok t) (path m : String)
    (hex : ∃ rt ∈ routes, patternMatches rt.pattern path = true)
    (hno : ∀ rt1 ∈ routes, patternMatches rt1.pattern path = true → rt1.method ≠ m) :
    ∃ tbl ps c al,
      t.root.search (pathTokens path) m = SearchResult.methodNotAllowed tbl ps c al := by
  cases hres : t.root.search (pathTokens path) m with
  | matched h ps c =>
    obtain ⟨rt0, hmem0, hmeth0, -, segs0, hparse0, hm0, -⟩ :=
      search_matched_route hroot hall path m hres
    exact (hno rt0 hmem0 ((patternMatches_iff _ _).2 ⟨segs0, hparse0, isSome_of_eq_some hm0⟩)
      hmeth0).elim
  | notFound =>
    obtain ⟨rt, hmem, hpm⟩ := hex
    have := (search_notFound_iff hroot hall path m).1 (by rw [hres]; rfl) rt hmem
    rw [this] at hpm
    cases hpm
  | methodNotAllowed tbl ps c al => exact ⟨tbl, ps, c, al, rfl⟩

/-- C4, amended: HEAD served by GET.  Take a HEAD request and a registered
pattern that matches its path.  If the pattern has a GET handler and no
registered pattern matching the path has a HEAD handler, the request yields
405 when `HeadCanUseGet` is false, and when it is true the request invokes
that GET handler, provided the pattern is preferred, static over wildcard over
catch-all, to every registered pattern with a GET handler that matches the
path.  If the pattern has a HEAD handler and is preferred to every registered
pattern with a HEAD handler that matches the path, the request invokes that
HEAD handler, whatever the flag. -/
theorem head_served_by_get_when_preferred (clean : String → String) (t0 t : TreeMux H)
    (routes : List (Route H)) (r : Request) (rt : Route H) (segs : List Segment)
    (hroot : t0.root = Node.empty) (hall : t0.HandleAll routes = .ok t)
    (hhead : r.Method = "HEAD") (hmem : rt ∈ routes)
    (hparse : parsePattern rt.pattern = .ok segs)
    (hm : (matchSegments segs (pathTokens r.Path)).isSome = true) :
    (rt.method = "GET" →
      (∀ rt1 ∈ routes, patternMatches rt1.pattern r.Path = true → rt1.method ≠ "HEAD") →
      (t.HeadCanUseGet = true →
        (∀ rt1 ∈ routes, rt1.method = "GET" → ∀ segs1, parsePattern rt1.pattern = .ok segs1 →
          (matchSegments segs1 (pathTokens r.Path)).isSome = true → prefers segs segs1 = true) →
        ∃ r1, t.ServeHTTP clean r = .ok (Response.invoke rt.handler r1)) ∧
      (t.HeadCanUseGet = false →
        ∃ allowed, t.ServeHTTP clean r = .ok (Response.methodNotAllowed allowed))) ∧
    (rt.method = "HEAD" →
      (∀ rt1 ∈ routes, rt1.method = "HEAD" → ∀ segs1, parsePattern rt1.pattern = .ok segs1 →
        (matchSegments segs1 (pathTokens r.Path)).isSome = true → prefers segs segs1 = true) →
      ∃ r1, t.ServeHTTP clean r = .ok (Response.invoke rt.handler r1)) := by
  constructor
  · intro hget hno
    obtain ⟨tbl, ps, c, al, hres⟩ := search_methodNotAllowed_of hroot hall r.Path "HEAD"
      ⟨rt, hmem, (patternMatches_iff _ _).2 ⟨segs, hparse, hm⟩⟩ hno
    constructor
    · intro hflag hpref
      obtain ⟨ps1, c1, hget1⟩ :=
        search_preferred hroot hall r.Path "GET" hmem hget hparse hm hpref
      have hserve : t.ServeHTTP clean r = t.invoke r rt.handler ps1 c1 := by
        unfold TreeMux.ServeHTTP TreeMux.lookup
        rw [hhead, hres]
        simp only [hflag, and_self, if_true, hget1]
      exact ⟨_, hserve.trans (invoke_eq t r rt.handler ps1 c1)⟩
    · intro hflag
      refine ⟨al, ?_⟩
      unfold TreeMux.ServeHTTP TreeMux.lookup
      rw [hhead, hres]
      simp [hflag]
  · intro hmeth hpref
    obtain ⟨ps, c, hres⟩ := search_preferred hroot hall r.Path "HEAD" hmem hmeth hparse hm hpref
    have hserve : t.ServeHTTP clean r = t.invoke r rt.handler ps c := by
      unfold TreeMux.ServeHTTP
      rw [hhead, lookup_matched t r.Path "HEAD" hres]
    exact ⟨_, hserve.trans (invoke_eq t r rt.handler ps c)⟩

theorem groupRoutes_pattern (rt : Route String) (hmem : rt ∈ groupRoutes) :
    parsePattern rt.pattern
      = .ok [Segment.static "base", Segment.static "user", Segment.wildcard "param"] ∧
    rt.method ≠ "HEAD" := by
  simp only [groupRoutes, List.mem_cons, List.mem_singleton, List.not_mem_nil, or_false] at hmem
  rcases hmem with rfl | rfl | rfl | rfl | rfl <;> exact ⟨rfl, by decide⟩

/-- Witness of C4, amended: with the routes of `testContextGroupMethods`, HEAD
`/base/user/HEAD` invokes the GET handler when `HeadCanUseGet` is true and
gives 405 when it is false; once a HEAD handler is registered on the pattern
it is invoked under either value of the flag. -/
theorem head_served_by_get_when_preferred_witness :
    ({ (New : TreeMux String) with HeadCanUseGet := true }).HandleAll groupRoutes
      = .ok (groupMux true) ∧
    (groupMux true).HeadCanUseGet = true ∧
    (∃ r1, (groupMux true).ServeHTTP cleanPath (NewRequest "HEAD" "/base/user/HEAD")
      = .ok (Response.invoke "GET" r1)) ∧
    (∃ allowed, (groupMux false).ServeHTTP cleanPath (NewRequest "HEAD" "/base/user/HEAD")
      = .ok (Response.methodNotAllowed allowed)) ∧
    (∃ t, (groupMux true).Handle "HEAD" "/base/user/:param" "HEAD" = .ok t ∧
      ∃ r1, t.ServeHTTP cleanPath (NewRequest "HEAD" "/base/user/HEAD")
        = .ok (Response.invoke "HEAD" r1)) ∧
    (∃ t, (groupMux false).Handle "HEAD" "/base/user/:param" "HEAD" = .ok t ∧
      ∃ r1, t.ServeHTTP cleanPath (NewRequest "HEAD" "/base/user/HEAD")
        = .ok (Response.invoke "HEAD" r1)) :=
  ⟨rfl, rfl,
    (((head_served_by_get_when_preferred cleanPath
      { (New : TreeMux String) with HeadCanUseGet := true } (groupMux true) groupRoutes
      (NewRequest "HEAD" "/base/user/HEAD") ⟨"GET", "/base/user/:param", "GET"⟩
      [Segment.static "base", Segment.static "user", Segment.wildcard "param"] rfl rfl rfl
      (by simp [groupRoutes]) rfl rfl).1 rfl
      (fun rt1 hmem1 _ => (groupRoutes_pattern rt1 hmem1).2)).1 rfl
      (by
        intro rt1 hmem1 _ segs1 hparse1 _
        rw [(groupRoutes_pattern rt1 hmem1).1] at hparse1
        injection hparse1 with e
        subst e
        rfl)),
    ⟨_, rfl⟩, ⟨_, rfl, _, rfl⟩, ⟨_, rfl, _, rfl⟩⟩

/-- Counterexample to C4 as stated, on the pattern `/a/:x` and the request
HEAD `/a/b`, which it matches.  With GET `/a/:x` and HEAD `/a/b` registered,
the pattern has a GET handler and no HEAD handler, yet the request does not
invoke that GET handler when `HeadCanUseGet` is true and does not yield 405
when it is false: the HEAD handler of `/a/b` is served.  With GET `/a/:x` and
GET `/a/b` registered and the flag true, the request invokes the GET handler
of `/a/b`, not that of `/a/:x`.  Once HEAD `/a/:x` is registered beside HEAD
`/a/b`, the request still invokes the HEAD handler of `/a/b`, not that of
`/a/:x`. -/
theorem head_served_by_get_counterexample :
    (({ (New : TreeMux String) with HeadCanUseGet := true }).HandleAll headRoutes
        = .ok (headMux true) ∧
      ({ (New : TreeMux String) with HeadCanUseGet := false }).HandleAll headRoutes
        = .ok (headMux false) ∧
      (∃ rt ∈ headRoutes, rt.method = "GET" ∧ rt.pattern = "/a/:x" ∧ rt.handler = "GET /a/:x") ∧
      (∀ rt ∈ headRoutes, rt.pattern = "/a/:x" → rt.method ≠ "HEAD") ∧
      patternMatches "/a/:x" "/a/b" = true ∧
      (headMux true).HeadCanUseGet = true ∧
      (¬ ∃ r1, (headMux true).ServeHTTP cleanPath (NewRequest "HEAD" "/a/b")
        = .ok (Response.invoke "GET /a/:x" r1)) ∧
      (headMux false).HeadCanUseGet = false ∧
      (¬ ∃ allowed, (headMux false).ServeHTTP cleanPath (NewRequest "HEAD" "/a/b")
        = .ok (Response.methodNotAllowed allowed))) ∧
    ((New : TreeMux String).HandleAll getRoutes = .ok getMux ∧
      (∃ rt ∈ getRoutes, rt.method = "GET" ∧ rt.pattern = "/a/:x" ∧ rt.handler = "GET /a/:x") ∧
      (∀ rt ∈ getRoutes, rt.method ≠ "HEAD") ∧
      getMux.HeadCanUseGet = true ∧
      (¬ ∃ r1, getMux.ServeHTTP cleanPath (NewRequest "HEAD" "/a/b")
        = .ok (Response.invoke "GET /a/:x" r1))) ∧
    ((headMux true).Handle "HEAD" "/a/:x" "HEAD /a/:x" = .ok headMuxMore ∧
      (¬ ∃ r1, headMuxMore.ServeHTTP cleanPath (NewRequest "HEAD" "/a/b")
        = .ok (Response.invoke "HEAD /a/:x" r1))) := by
  have h1 : (headMux true).ServeHTTP cleanPath (NewRequest "HEAD" "/a/b")
      = .ok (Response.invoke "HEAD /a/b" (NewRequest "HEAD" "/a/b")) := rfl
  have h2 : (headMux false).ServeHTTP cleanPath (NewRequest "HEAD" "/a/b")
      = .ok (Response.invoke "HEAD /a/b" (NewRequest "HEAD" "/a/b")) := rfl
  have h3 : getMux.ServeHTTP cleanPath (NewRequest "HEAD" "/a/b")
      = .ok (Response.invoke "GET /a/b" (NewRequest "HEAD" "/a/b")) := rfl
  have h4 : headMuxMore.ServeHTTP cleanPath (NewRequest "HEAD" "/a/b")
      = .ok (Response.invoke "HEAD /a/b" (NewRequest "HEAD" "/a/b")) := rfl
  refine ⟨⟨rfl, rfl, ⟨⟨"GET", "/a/:x", "GET /a/:x"⟩, by simp [headRoutes], rfl, rfl, rfl⟩, ?_,
    rfl, rfl, ?_, rfl, ?_⟩, ⟨rfl, ⟨⟨"GET", "/a/:x", "GET /a/:x"⟩, by simp [getRoutes], rfl, rfl,
    rfl⟩, ?_, rfl, ?_⟩, ⟨rfl, ?_⟩⟩
  · intro rt hmem hpat
    simp only [headRoutes, List.mem_cons, List.mem_singleton, List.not_mem_nil, or_false] at hmem
    rcases hmem with rfl | rfl
    · decide
    · exact absurd hpat (by decide)
  · rintro ⟨r1, hr1⟩
    rw [h1] at hr1
    injection hr1 with e
    injection e with e1 _
    exact absurd e1 (by decide)
  · rintro ⟨al, hal⟩
    rw [h2] at hal
    injection hal with e
    cases e
  · intro rt hmem
    simp only [getRoutes, List.mem_cons, List.mem_singleton, List.not_mem_nil, or_false] at hmem
    rcases hmem with rfl | rfl <;> decide
  · rintro ⟨r1, hr1⟩
    rw [h3] at hr1
    injection hr1 with e
    injection e with e1 _
    exact absurd e1 (by decide)
  · rintro ⟨r1, hr1⟩
    rw [h4] at hr1
    injection hr1 with e
    injection e with e1 _
    exact absurd e1 (by decide)

/-- C7: default context selection.  `setDefaultRequestContext` returns the
request unchanged when `DefaultContext` is nil; when it is a context `d`, it
returns the request with `d` as its context, so that `Param` of the returned
request's context equals `Param` of `d` for every name. -/
theorem setDefaultRequestContext_selects (t : TreeMux H) (r : Request) :
    (t.DefaultContext = none → t.setDefaultRequestContext r = .ok r) ∧
    (∀ d, t.DefaultContext = some d →
      ∃ r1, t.setDefaultRequestContext r = .ok r1 ∧ r1.ctx = some d ∧ r1.Context = d ∧
        r1.Method = r.Method ∧ r1.Path = r.Path ∧
        ∀ n, Param (some r1.Context) n = Param (some d) n) := by
  constructor
  · intro hd
    rw [setDefaultRequestContext_eq, hd]
  · intro d hd
    refine ⟨{ r with ctx := some d }, ?_, rfl, rfl, rfl, rfl, fun n => rfl⟩
    rw [setDefaultRequestContext_eq, hd]

/-- Witness of C7: with `DefaultContext` holding `abc` bound to `def`, the
handler of GET `/abc` reads `def` under `abc`; without it the handler reads
the empty string. -/
theorem setDefaultRequestContext_selects_witness :
    (New : TreeMux String).DefaultContext = none ∧
    (New : TreeMux String).setDefaultRequestContext (NewRequest "GET" "/abc")
      = .ok (NewRequest "GET" "/abc") ∧
    Param (some (NewRequest "GET" "/abc").Context) "abc" = .ok "" ∧
    abcMux.DefaultContext = some abcContext ∧
    (∃ r1, abcMux.setDefaultRequestContext (NewRequest "GET" "/abc") = .ok r1 ∧
      r1.Context = abcContext ∧ Param (some r1.Context) "abc" = .ok "def") ∧
    (∃ r1, (muxOf New abcRoutes).ServeHTTP cleanPath (NewRequest "GET" "/abc")
        = .ok (Response.invoke "GET /abc" r1) ∧
      Param (some r1.Context) "abc" = .ok "") ∧
    (∃ r1, (muxOf abcMux abcRoutes).ServeHTTP cleanPath (NewRequest "GET" "/abc")
        = .ok (Response.invoke "GET /abc" r1) ∧
      Param (some r1.Context) "abc" = .ok "def") := by
  refine ⟨rfl, ?_, rfl, rfl, ?_, ⟨_, rfl, rfl⟩, ⟨_, rfl, rfl⟩⟩
  · exact (setDefaultRequestContext_selects (New : TreeMux String) (NewRequest "GET" "/abc")).1 rfl
  · obtain ⟨r1, h1, -, h3, -, -, h6⟩ :=
      (setDefaultRequestContext_selects abcMux (NewRequest "GET" "/abc")).2 abcContext rfl
    exact ⟨r1, h1, h3, (h6 "abc").trans rfl⟩

/-- Counterexample to C8 as stated: the context of the request binds `id` to
`123`, the default context binds only `abc`, and after
`setDefaultRequestContext` the request's context no longer binds `id`. -/
theorem default_context_merge_counterexample :
    abcMux.DefaultContext = some abcContext ∧
    Param (some idRequest.Context) "id" = .ok "123" ∧
    abcMux.setDefaultRequestContext idRequest = .ok replacedRequest ∧
    Param (some replacedRequest.Context) "id" = .ok "" ∧
    Param (some replacedRequest.Context) "id" ≠ .ok "123" := by
  refine ⟨rfl, rfl, rfl, rfl, ?_⟩
  intro h
  have h0 : Param (some replacedRequest.Context) "id" = .ok "" := rfl
  rw [h0] at h
  injection h with e
  exact absurd e (by decide)

/-- C8, amended: the default context replaces the request's context.  When
`DefaultContext` is a context `d`, the context of the request returned by
`setDefaultRequestContext` binds every key exactly as `d` does, so that a key
bound in `d` is retrieved with the value `d` gives it; when `DefaultContext` is
nil, every binding of the request's context is kept. -/
theorem default_context_replaces (t : TreeMux H) (r : Request) :
    (∀ d, t.DefaultContext = some d →
      ∃ r1, t.setDefaultRequestContext r = .ok r1 ∧
        (∀ key, r1.Context.Value key = d.Value key) ∧
        (∀ n, Param (some r1.Context) n = Param (some d) n) ∧
        CatchAll (some r1.Context) = CatchAll (some d)) ∧
    (t.DefaultContext = none →
      ∃ r1, t.setDefaultRequestContext r = .ok r1 ∧
        ∀ key, r1.Context.Value key = r.Context.Value key) := by
  constructor
  · intro d hd
    refine ⟨{ r with ctx := some d }, ?_, fun key => rfl, fun n => rfl, rfl⟩
    rw [setDefaultRequestContext_eq, hd]
  · intro hd
    refine ⟨r, ?_, fun key => rfl⟩
    rw [setDefaultRequestContext_eq, hd]

/-- Witness of C8, amended: on the request binding `id`, the default context
binding `abc` gives `def` under `abc` and nothing under `id`; with no default
context the binding of `id` is kept. -/
theorem default_context_replaces_witness :
    abcMux.DefaultContext = some abcContext ∧
    (∃ r1, abcMux.setDefaultRequestContext idRequest = .ok r1 ∧
      Param (some r1.Context) "abc" = .ok "def" ∧ Param (some r1.Context) "id" = .ok "") ∧
    (New : TreeMux String).DefaultContext = none ∧
    (∃ r1, (New : TreeMux String).setDefaultRequestContext idRequest = .ok r1 ∧
      r1.Context.Value (GoVal.wayContextKey "id") = GoVal.string "123") := by
  refine ⟨rfl, ?_, rfl, ?_⟩
  · obtain ⟨r1, h1, -, h3, -⟩ := (default_context_replaces abcMux idRequest).1 abcContext rfl
    exact ⟨r1, h1, (h3 "abc").trans rfl, (h3 "id").trans rfl⟩
  · obtain ⟨r1, h1, h2⟩ := (default_context_replaces (New : TreeMux String) idRequest).2 rfl
    exact ⟨r1, h1, (h2 _).trans rfl⟩

end Way
